import Mathlib

/-!
Verification of the alist-encrypt-go streaming cipher layer, filename codec,
policy resolver, range-aware download proxy and redirect registry.

Go byte strings (`string`, `[]byte`) are modelled as `List Nat` with values
below 256.  Cryptographic primitives from the Go standard library and
`golang.org/x/crypto` (MD5, SHA-256, PBKDF2, the AES block function and the
ChaCha20 block function) are not part of the repository; they are taken as
parameters bundled in a `Prims` structure, so every theorem holds for any
implementation of those primitives.  All code logic of the repository itself
(key derivation plumbing, IV/counter seek arithmetic, the RC4 KSA/PRGA, the
MixBase64 codec, CRC-6, range parsing, the download decision flow and the
redirect registry) is translated directly from the Go source.
-/

set_option maxHeartbeats 1000000
set_option maxRecDepth 4000

namespace AlistEnc



/-- ASCII bytes of a Lean string literal (all strings in the repo that we
model are ASCII, where the Go byte value equals the code point). -/
def strBytes (s : String) : List Nat := s.data.map (fun c => c.toNat)

/-- Decimal digits of a natural number as ASCII bytes
(`strconv.FormatInt(n, 10)` for a non-negative `int64`). -/
def decBytes (n : Nat) : List Nat := strBytes (toString n)

/-- Lowercase hex digit characters, as in Go `encoding/hex`. -/
def hexDigits : List Nat := strBytes "0123456789abcdef"

/-- `hex.EncodeToString`: two lowercase hex chars per byte. -/
def hexEncode (bs : List Nat) : List Nat :=
  bs.flatMap (fun b => [hexDigits.get! (b / 16 % 16), hexDigits.get! (b % 16)])

/-- Value of a hex digit character (ASCII byte), as in `encoding/hex`. -/
def hexDigitVal (c : Nat) : Nat :=
  if 48 ≤ c ∧ c ≤ 57 then c - 48
  else if 97 ≤ c ∧ c ≤ 102 then c - 87
  else if 65 ≤ c ∧ c ≤ 70 then c - 55
  else 0

/-- `hex.DecodeString` on an even-length hex string (the only way the repo
uses it); pairs of digits become bytes. -/
def hexDecode : List Nat → List Nat
  | c1 :: c2 :: rest => (16 * hexDigitVal c1 + hexDigitVal c2) :: hexDecode rest
  | _ => []

/-- Big-endian value of a byte list (`binary.BigEndian.Uint64` reads 8 bytes
this way). -/
def beBytesToNat (bs : List Nat) : Nat := bs.foldl (fun acc b => 256 * acc + b) 0

/-- Big-endian encoding of `v mod 2^(8k)` on `k` bytes
(`binary.BigEndian.PutUint64` / `PutUint32`). -/
def natToBE : Nat → Nat → List Nat
  | 0, _ => []
  | k + 1, v => natToBE k (v / 256) ++ [v % 256]

/-- All elements are bytes. -/
def BytesOk (l : List Nat) : Prop := ∀ b ∈ l, b < 256

/-- The abstract cryptographic primitives used by the repository:
MD5, SHA-256, PBKDF2 (password, salt, iterations, key length), the AES
block encryption (key, 16-byte block) and the ChaCha20 block function
(key, nonce, 32-bit counter). -/
structure Prims where
  md5 : List Nat → List Nat
  sha256 : List Nat → List Nat
  pbkdf2 : List Nat → List Nat → Nat → Nat → List Nat
  aesEnc : List Nat → List Nat → List Nat
  chachaBlock : List Nat → List Nat → Nat → List Nat

/-- Shape facts that the real primitives satisfy: digest/stream lengths and
byte ranges. -/
def Prims.Wf (P : Prims) : Prop :=
  (∀ d, (P.md5 d).length = 16 ∧ BytesOk (P.md5 d)) ∧
  (∀ d, (P.sha256 d).length = 32 ∧ BytesOk (P.sha256 d)) ∧
  (∀ pw salt iter dk, (P.pbkdf2 pw salt iter dk).length = dk ∧
      BytesOk (P.pbkdf2 pw salt iter dk)) ∧
  (∀ k blk, (P.aesEnc k blk).length = 16 ∧ BytesOk (P.aesEnc k blk)) ∧
  (∀ k n c, (P.chachaBlock k n c).length = 64 ∧ BytesOk (P.chachaBlock k n c))

/-! ## AES-128-CTR (`aes_ctr.go`: `NewAESCTR`, `SetPosition`, `incrementIV`,
`Encrypt`) -/

/-- State of the `AESCTR` struct together with the position of the underlying
`cipher.Stream`.  `ivCur` is the IV the current CTR stream was created with
and `consumed` counts keystream bytes already taken from that stream. -/
structure AESCTR where
  password : List Nat
  fileSize : Nat
  key : List Nat
  ivCur : List Nat
  consumed : Nat
  position : Nat

/-- `NewAESCTR`: PBKDF2 over salt "AES-CTR", key = MD5(hex(outward) ∥
decimal(fileSize)), IV = MD5(decimal(fileSize)).  (`aes.NewCipher` never
fails on the 16-byte MD5 key, so construction is total.) -/
def NewAESCTR (P : Prims) (password : List Nat) (fileSize : Nat) : AESCTR :=
  let passwdOutward := P.pbkdf2 password (strBytes "AES-CTR") 1000 16
  let passwdSalt := hexEncode passwdOutward ++ decBytes fileSize
  let key := P.md5 passwdSalt
  let iv := P.md5 (decBytes fileSize)
  { password := password, fileSize := fileSize, key := key,
    ivCur := iv, consumed := 0, position := 0 }

/-- `incrementIV`: add `count` (a non-negative `int64`, converted to
`uint64`) to the low 8 IV bytes big-endian; on wrap-around add 1 to the
high 8 bytes. -/
def AESCTR.incrementIV (iv : List Nat) (count : Nat) : List Nat :=
  let lower := beBytesToNat ((iv.drop 8).take 8)
  let newLower := (lower + count) % 2 ^ 64
  let iv1 := iv.take 8 ++ natToBE 8 newLower
  if newLower < lower then
    let upper := beBytesToNat (iv1.take 8)
    natToBE 8 ((upper + 1) % 2 ^ 64) ++ iv1.drop 8
  else iv1

/-- `SetPosition`: reset the IV to `MD5(decimal(fileSize))`, add
`position / 16` blocks to it, create a fresh CTR stream and discard
`position % 16` keystream bytes.  (Positions are naturals here; the Go
code additionally errors on negative input.) -/
def AESCTR.SetPosition (P : Prims) (a : AESCTR) (position : Nat) : AESCTR :=
  let iv := P.md5 (decBytes a.fileSize)
  let blockCount := position / 16
  let iv' := AESCTR.incrementIV iv blockCount
  { a with ivCur := iv', consumed := position % 16, position := position }

/-- Keystream byte `i` of the current CTR stream: Go's `cipher.NewCTR`
encrypts the big-endian counter `ivCur + blockIndex (mod 2^128)` and uses
the block bytes in order. -/
def AESCTR.ksByte (P : Prims) (a : AESCTR) (i : Nat) : Nat :=
  (P.aesEnc a.key
    (natToBE 16 ((beBytesToNat a.ivCur + (a.consumed + i) / 16) % 2 ^ 128))).get!
    ((a.consumed + i) % 16)

/-- `Encrypt` (= `Decrypt`): XOR the data with the keystream in place and
advance the position. -/
def AESCTR.Encrypt (P : Prims) (a : AESCTR) (data : List Nat) :
    AESCTR × List Nat :=
  ({ a with consumed := a.consumed + data.length,
            position := a.position + data.length },
   data.mapIdx (fun i b => b ^^^ AESCTR.ksByte P a i))

/-! Spec-side formulations for claim C3, written from the specification's
wording (§4.1.1), to be compared with the source translation. -/

/-- Spec §4.1.1: `key = MD5(hex(PBKDF2(password, "AES-CTR", 1000, 16,
SHA-256)) ∥ decimal(totalFileSize))`. -/
def specAESKey (P : Prims) (password : List Nat) (size : Nat) : List Nat :=
  P.md5 (hexEncode (P.pbkdf2 password (strBytes "AES-CTR") 1000 16) ++ decBytes size)

/-- Spec §4.1.1: `IV = MD5(decimal(totalFileSize))`. -/
def specAESIV (P : Prims) (size : Nat) : List Nat :=
  P.md5 (decBytes size)

/-- Spec §4.1.1 seek: split the 16-byte IV into big-endian high and low
64-bit halves, add `blockIndex` to the low half with carry into the high
half. -/
def specSeekIV (iv : List Nat) (blockIndex : Nat) : List Nat :=
  let hi := beBytesToNat (iv.take 8)
  let lo := beBytesToNat (iv.drop 8)
  let lo' := (lo + blockIndex) % 2 ^ 64
  let hi' := if 2 ^ 64 ≤ lo + blockIndex then (hi + 1) % 2 ^ 64 else hi
  natToBE 8 hi' ++ natToBE 8 lo'

/-- `dummyPrims`: trivial primitives witnessing that `Prims.Wf` is
satisfiable (used to instantiate hypothesis witnesses). -/
def dummyPrims : Prims where
  md5 := fun _ => List.replicate 16 0
  sha256 := fun _ => List.replicate 32 0
  pbkdf2 := fun _ _ _ dk => List.replicate dk 0
  aesEnc := fun _ _ => List.replicate 16 0
  chachaBlock := fun _ _ _ => List.replicate 64 0

/-! ## ChaCha20 (`chacha20.go`: `NewChaCha20`, `SetPosition`, `Encrypt`)

`golang.org/x/crypto/chacha20` keeps a 32-bit block counter; generating
keystream past counter `2^32` panics ("chacha20: counter overflow"), which
we model with `Option`. -/

/-- State of the `ChaCha20Cipher` struct together with the position of the
wrapped `chacha20.Cipher`: `counter0` is the 32-bit counter the stream was
(re)created at and `consumed` counts keystream bytes taken since. -/
structure ChaCha20Cipher where
  password : List Nat
  fileSize : Nat
  key : List Nat
  nonce : List Nat
  counter0 : Nat
  consumed : Nat
  position : Nat

/-- `NewChaCha20`: key = SHA-256(hex(PBKDF2(password, "ChaCha20", 1000, 32,
SHA-256)) ∥ decimal(fileSize)), nonce = first 12 bytes of
MD5(decimal(fileSize)). -/
def NewChaCha20 (P : Prims) (password : List Nat) (fileSize : Nat) : ChaCha20Cipher :=
  let passwdOutward := P.pbkdf2 password (strBytes "ChaCha20") 1000 32
  let passwdSalt := hexEncode passwdOutward ++ decBytes fileSize
  let key := P.sha256 passwdSalt
  let nonce := (P.md5 (decBytes fileSize)).take 12
  { password := password, fileSize := fileSize, key := key, nonce := nonce,
    counter0 := 0, consumed := 0, position := 0 }

/-- `SetPosition`: `blockCount := uint32(position / 64)` — note the 32-bit
truncation — then recreate the cipher, `SetCounter(blockCount)` and discard
`position % 64` keystream bytes. -/
def ChaCha20Cipher.SetPosition (c : ChaCha20Cipher) (position : Nat) : ChaCha20Cipher :=
  { c with counter0 := position / 64 % 2 ^ 32,
           consumed := position % 64,
           position := position }

/-- Keystream byte `i` of the current stream (blocks are the ChaCha20 block
function at successive counters). -/
def ChaCha20Cipher.ksByte (P : Prims) (c : ChaCha20Cipher) (i : Nat) : Nat :=
  (P.chachaBlock c.key c.nonce (c.counter0 + (c.consumed + i) / 64)).get!
    ((c.consumed + i) % 64)

/-- `Encrypt` (= `Decrypt`): XOR with the keystream; `none` models the
stdlib's counter-overflow panic. -/
def ChaCha20Cipher.Encrypt (P : Prims) (c : ChaCha20Cipher) (data : List Nat) :
    Option (ChaCha20Cipher × List Nat) :=
  if c.counter0 + (c.consumed + data.length + 63) / 64 ≤ 2 ^ 32 then
    some ({ c with consumed := c.consumed + data.length,
                   position := c.position + data.length },
          data.mapIdx (fun i b => b ^^^ ChaCha20Cipher.ksByte P c i))
  else none

/-! ## RC4-MD5 (`rc4md5.go`: `NewRC4MD5`, `resetKSA`, `initKSA`,
`SetPosition`, `prgaAdvance`, `Encrypt`) -/

/-- `segmentPosition = 1000000`: RC4 re-keys every million bytes. -/
def segmentPosition : Nat := 1000000

/-- The mutable RC4 core: S-box and the two PRGA indices. -/
structure RC4Core where
  i : Nat
  j : Nat
  sbox : List Nat

/-- State of the `RC4MD5` struct. -/
structure RC4MD5 where
  password : List Nat
  fileSize : Nat
  fileHexKey : List Nat
  core : RC4Core
  position : Nat

/-- `initKSA`: the standard RC4 key schedule over a 256-entry S-box. -/
def RC4MD5.initKSA (key : List Nat) : RC4Core :=
  let K := (List.range 256).map (fun i => key.get! (i % key.length))
  let sbox0 := List.range 256
  let final := (List.range 256).foldl
    (fun (st : List Nat × Nat) i =>
      let (sbox, j) := st
      let j' := (j + sbox.get! i + K.get! i) % 256
      ((sbox.set i (sbox.get! j')).set j' (sbox.get! i), j'))
    (sbox0, 0)
  { i := 0, j := 0, sbox := final.1 }

/-- `resetKSA`: XOR the big-endian 32-bit segment offset
`(position / segmentPosition) * segmentPosition` into the last 4 bytes of
the base key (`unhex(fileHexKey)`), then run the KSA. -/
def RC4MD5.resetKSA (fileHexKey : List Nat) (position : Nat) : RC4Core :=
  let offset := position / segmentPosition * segmentPosition
  let offsetBuf := natToBE 4 offset
  let rc4Key := hexDecode fileHexKey
  let j := rc4Key.length - 4
  let rc4Key' := (List.range rc4Key.length).map
    (fun i => if j ≤ i then rc4Key.get! i ^^^ offsetBuf.get! (i - j) else rc4Key.get! i)
  RC4MD5.initKSA rc4Key'

/-- `NewRC4MD5`: outward key is the password itself when it has 32 bytes,
else hex(PBKDF2(password, "RC4", 1000, 16, SHA-256)); `fileHexKey` =
hex(MD5(outward ∥ decimal(fileSize))); initial KSA at position 0. -/
def NewRC4MD5 (P : Prims) (password : List Nat) (fileSize : Nat) : RC4MD5 :=
  let passwdOutward :=
    if password.length = 32 then password
    else hexEncode (P.pbkdf2 password (strBytes "RC4") 1000 16)
  let passwdSalt := passwdOutward ++ decBytes fileSize
  let fileHexKey := hexEncode (P.md5 passwdSalt)
  { password := password, fileSize := fileSize, fileHexKey := fileHexKey,
    core := RC4MD5.resetKSA fileHexKey 0, position := 0 }

/-- One PRGA index-advance step (no output), as in `prgaAdvance`'s loop
body and the first half of `Encrypt`'s loop body. -/
def RC4Core.step (c : RC4Core) : RC4Core :=
  let i' := (c.i + 1) % 256
  let j' := (c.j + c.sbox.get! i') % 256
  { i := i', j := j',
    sbox := (c.sbox.set i' (c.sbox.get! j')).set j' (c.sbox.get! i') }

/-- The keystream byte read after a step: `sbox[(sbox[i]+sbox[j]) % 256]`. -/
def RC4Core.out (c : RC4Core) : Nat :=
  c.sbox.get! ((c.sbox.get! c.i + c.sbox.get! c.j) % 256)

/-- `prgaAdvance count`: advance without output. -/
def RC4MD5.prgaAdvance (c : RC4Core) (count : Nat) : RC4Core :=
  RC4Core.step^[count] c

/-- `SetPosition`: store the position, re-run the KSA for its segment, then
advance the PRGA by `position % segmentPosition` discards. -/
def RC4MD5.SetPosition (r : RC4MD5) (position : Nat) : RC4MD5 :=
  let core := RC4MD5.resetKSA r.fileHexKey position
  let offset := position % segmentPosition
  { r with position := position, core := RC4MD5.prgaAdvance core offset }

/-- `Encrypt` (= `Decrypt`): per byte, advance, XOR with the keystream
byte, bump the position, and re-key when the position reaches a segment
boundary. -/
def RC4MD5.Encrypt (r : RC4MD5) : List Nat → RC4MD5 × List Nat
  | [] => (r, [])
  | b :: rest =>
    let c := RC4Core.step r.core
    let outB := b ^^^ RC4Core.out c
    let pos := r.position + 1
    let c' := if pos % segmentPosition = 0 then RC4MD5.resetKSA r.fileHexKey pos else c
    let r' := { r with core := c', position := pos }
    let (rF, outRest) := RC4MD5.Encrypt r' rest
    (rF, outB :: outRest)

/-! ## FlowEnc dispatcher (`flowenc.go` / `registry.go`): one of the three
registered ciphers, uniform `SetPosition` / `Encrypt` / `Decrypt`. -/

/-- The three registered `EncType` values. -/
inductive EncType where
  | aesctr
  | rc4md5
  | chacha20
deriving DecidableEq

/-- A `FlowEnc` instance holds one of the three cipher states. -/
inductive FlowState where
  | aes (a : AESCTR)
  | rc4 (r : RC4MD5)
  | cha (c : ChaCha20Cipher)

/-- `NewFlowEnc` via the cipher registry. -/
def NewFlowEnc (P : Prims) (encType : EncType) (password : List Nat)
    (fileSize : Nat) : FlowState :=
  match encType with
  | .aesctr => .aes (NewAESCTR P password fileSize)
  | .rc4md5 => .rc4 (NewRC4MD5 P password fileSize)
  | .chacha20 => .cha (NewChaCha20 P password fileSize)

/-- `FlowEnc.SetPosition`. -/
def FlowState.SetPosition (P : Prims) : FlowState → Nat → FlowState
  | .aes a, p => .aes (AESCTR.SetPosition P a p)
  | .rc4 r, p => .rc4 (RC4MD5.SetPosition r p)
  | .cha c, p => .cha (ChaCha20Cipher.SetPosition c p)

/-- `FlowEnc.Encrypt` = `FlowEnc.Decrypt` (all three are XOR stream
ciphers); `none` models the ChaCha20 counter-overflow panic. -/
def FlowState.Encrypt (P : Prims) : FlowState → List Nat →
    Option (FlowState × List Nat)
  | .aes a, data =>
    let (a', out) := AESCTR.Encrypt P a data
    some (.aes a', out)
  | .rc4 r, data =>
    let (r', out) := RC4MD5.Encrypt r data
    some (.rc4 r', out)
  | .cha c, data =>
    (ChaCha20Cipher.Encrypt P c data).map (fun (p : ChaCha20Cipher × List Nat) =>
      (FlowState.cha p.1, p.2))

/-! ## Absolute keystream characterisation

Each cipher's keystream byte at absolute stream offset `t` is a pure
function of `(encType, password, totalFileSize, t)`. -/

/-- AES-CTR absolute keystream byte. -/
def aesAbsKs (P : Prims) (key : List Nat) (ivN t : Nat) : Nat :=
  (P.aesEnc key (natToBE 16 ((ivN + t / 16) % 2 ^ 128))).get! (t % 16)

/-- ChaCha20 absolute keystream byte. -/
def chaAbsKs (P : Prims) (key nonce : List Nat) (t : Nat) : Nat :=
  (P.chachaBlock key nonce (t / 64)).get! (t % 64)

/-- Canonical RC4 core at absolute stream offset `t`: KSA for `t`'s
segment, advanced by `t mod segmentPosition` steps. -/
def rc4Phi (fileHexKey : List Nat) (t : Nat) : RC4Core :=
  RC4MD5.prgaAdvance (RC4MD5.resetKSA fileHexKey t) (t % segmentPosition)

/-- RC4-MD5 absolute keystream byte. -/
def rc4AbsKs (fileHexKey : List Nat) (t : Nat) : Nat :=
  RC4Core.out (RC4Core.step (rc4Phi fileHexKey t))

/-- The absolute keystream bytes `[t, t+n)` of a cipher instance. -/
def flowAbsKs (P : Prims) (encType : EncType) (password : List Nat)
    (fileSize : Nat) (t n : Nat) : List Nat :=
  match encType with
  | .aesctr =>
    let a := NewAESCTR P password fileSize
    (List.range n).map (fun i => aesAbsKs P a.key (beBytesToNat a.ivCur) (t + i))
  | .rc4md5 =>
    let r := NewRC4MD5 P password fileSize
    (List.range n).map (fun i => rc4AbsKs r.fileHexKey (t + i))
  | .chacha20 =>
    let c := NewChaCha20 P password fileSize
    (List.range n).map (fun i => chaAbsKs P c.key c.nonce (t + i))

/-- The keystream of a cipher instance as a pure function of
`(encType, password, totalFileSize)` and the absolute offset. -/
def flowKsFun (P : Prims) (et : EncType) (pw : List Nat) (size : Nat) : Nat → Nat :=
  match et with
  | .aesctr => fun t =>
    aesAbsKs P (NewAESCTR P pw size).key (beBytesToNat (NewAESCTR P pw size).ivCur) t
  | .rc4md5 => fun t => rc4AbsKs (NewRC4MD5 P pw size).fileHexKey t
  | .chacha20 => fun t =>
    chaAbsKs P (NewChaCha20 P pw size).key (NewChaCha20 P pw size).nonce t

/-! Spec-side formulations for claim C4, from §4.1.3 of the specification. -/

/-- Spec §4.1.3: the outward key is the password itself when it has 32
bytes, else hex(PBKDF2(password, "RC4", 1000, 16, SHA-256)). -/
def specRC4Outward (P : Prims) (pw : List Nat) : List Nat :=
  if pw.length = 32 then pw else hexEncode (P.pbkdf2 pw (strBytes "RC4") 1000 16)

/-- Spec §4.1.3: base 16-byte key = unhex(hex(MD5(outward ∥
decimal(totalFileSize)))). -/
def specRC4BaseKey (P : Prims) (pw : List Nat) (size : Nat) : List Nat :=
  hexDecode (hexEncode (P.md5 (specRC4Outward P pw ++ decBytes size)))

/-- Spec §4.1.3: the key of segment `s` — XOR the last 4 bytes of the base
key with big-endian `uint32(s * 1_000_000)`. -/
def specRC4SegKey (base : List Nat) (s : Nat) : List Nat :=
  (List.range base.length).map
    (fun i => if base.length - 4 ≤ i
      then base.get! i ^^^ (natToBE 4 (s * segmentPosition)).get! (i - (base.length - 4))
      else base.get! i)

/-! ## Filename codec (`mixbase64.go` / `filename.go` in package
`encryption`): `initKSA`, `MixBase64`, CRC-6, `EncodeName`, `DecodeName`,
`ConvertShowName`) -/

/-- The 65 source characters `A-Za-z0-9-~+` (64 alphabet chars plus the
padding marker). -/
def sourceChars : List Nat :=
  strBytes "ABCDEFGHIJKLMNOPQRSTUVWXYZabcdefghijklmnopqrstuvwxyz0123456789-~+"

/-- One KSA shuffle round: `j = (j + S[i] + K[i]) mod n`, then swap
`S[i]` and `S[j]`. -/
def ksaStep (n : Nat) (K : List Nat) (st : List Nat × Nat) (i : Nat) : List Nat × Nat :=
  let j := (st.2 + st.1.get! i + K.get! i) % n
  (((st.1.set i (st.1.get! j)).set j (st.1.get! i)), j)

/-- `initKSA` (package-level, filename codec): shuffle the 65-char source
alphabet by an RC4-style KSA keyed with SHA-256 of the password. -/
def initKSA (P : Prims) (passwd : List Nat) : List Nat :=
  let key := P.sha256 passwd
  let n := sourceChars.length
  let K := (List.range n).map (fun i => key.get! (i % key.length))
  let final := (List.range n).foldl (ksaStep n K) (List.range n, 0)
  final.1.map (fun idx => sourceChars.get! idx)

/-- The `MixBase64` codec: a 65-entry alphabet (64 chars + pad). -/
structure MixBase64 where
  chars : List Nat

/-- `NewMixBase64`: a 64-byte password is the alphabet itself, anything
else is run through `initKSA` with the "mix64" suffix; the pad char is the
65th alphabet char, defaulting to `+` (43). -/
def NewMixBase64 (P : Prims) (passwd : List Nat) : MixBase64 :=
  let secret := if passwd.length = 64 then passwd
    else initKSA P (passwd ++ strBytes "mix64")
  { chars := (List.range 64).map (fun i => secret.get! i)
      ++ [if 64 < secret.length then secret.get! 64 else 43] }

/-- Go's `decodeMap` lookup: the map is built by inserting indices 0..64 in
order, so a duplicate character keeps the last index. -/
def MixBase64.lookup (m : MixBase64) (b : Nat) : Option Nat :=
  (List.range 65).foldl (fun acc i => if m.chars.get! i = b then some i else acc) none

/-- `MixBase64.Encode`: classical Base64 grouping over the permuted
alphabet (Go's byte shifts written as division/multiplication on byte
values). -/
def MixBase64.Encode (m : MixBase64) : List Nat → List Nat
  | b0 :: b1 :: b2 :: rest =>
    m.chars.get! (b0 / 4) :: m.chars.get! ((b0 % 4) * 16 + b1 / 16)
      :: m.chars.get! ((b1 % 16) * 4 + b2 / 64) :: m.chars.get! (b2 % 64)
      :: MixBase64.Encode m rest
  | [b0] => [m.chars.get! (b0 / 4), m.chars.get! ((b0 % 4) * 16),
      m.chars.get! 64, m.chars.get! 64]
  | [b0, b1] => [m.chars.get! (b0 / 4), m.chars.get! ((b0 % 4) * 16 + b1 / 16),
      m.chars.get! ((b1 % 16) * 4), m.chars.get! 64]
  | [] => []

/-- The write loop of `MixBase64.Decode`: 4 chars per round; the first
write is unguarded (`none` models Go's out-of-range panic), the second and
third are skipped for pad chars or a full buffer; `j` counts the bytes
written so far against the capacity `size`. -/
def MixBase64.decodeLoop (m : MixBase64) (size : Nat) : List Nat → Nat → Option (List Nat)
  | [], _ => some []
  | c1 :: c2 :: c3 :: c4 :: rest, j =>
    match m.lookup c1, m.lookup c2, m.lookup c3, m.lookup c4 with
    | some e1, some e2, some e3, some e4 =>
      if j < size then
        let out1 := ((e1 * 4) ||| (e2 / 16)) % 256
        if e3 ≠ 64 ∧ j + 1 < size then
          let out2 := (((e2 % 16) * 16) ||| (e3 / 4)) % 256
          if e4 ≠ 64 ∧ j + 2 < size then
            let out3 := (((e3 % 4) * 64) ||| e4) % 256
            (MixBase64.decodeLoop m size rest (j + 3)).map
              (fun t => out1 :: out2 :: out3 :: t)
          else
            (MixBase64.decodeLoop m size rest (j + 2)).map
              (fun t => out1 :: out2 :: t)
        else
          if e4 ≠ 64 ∧ j + 1 < size then
            let out3 := (((e3 % 4) * 64) ||| e4) % 256
            (MixBase64.decodeLoop m size rest (j + 2)).map
              (fun t => out1 :: out3 :: t)
          else
            (MixBase64.decodeLoop m size rest (j + 1)).map (fun t => out1 :: t)
      else none
    | _, _, _, _ => none
  | _, _ => none

/-- `MixBase64.Decode`: empty input decodes to nothing without error;
`none` models both the invalid-character error and Go's index panic on a
length not divisible by 4; the output size is pre-computed from the
padding suffix. -/
def MixBase64.Decode (m : MixBase64) (s : List Nat) : Option (List Nat) :=
  if s.length = 0 then some []
  else if s.length % 4 ≠ 0 then none
  else
    let pad := m.chars.get! 64
    let size := (s.length / 4) * 3 -
      (if [pad, pad].isSuffixOf s then 2 else if [pad].isSuffixOf s then 1 else 0)
    MixBase64.decodeLoop m size s 0

/-- One shift step of the CRC-6 table generator (reflected polynomial
0x30). -/
def crc6Step (c : Nat) : Nat := if c % 2 = 1 then (c / 2) ^^^ 0x30 else c / 2

/-- `generateTable6`: shift every byte value 8 times. -/
def crc6Table : List Nat := (List.range 256).map (fun i => crc6Step^[8] i)

/-- `CRC6.Checksum`. -/
def crc6Checksum (data : List Nat) : Nat :=
  data.foldl (fun crc b => crc6Table.get! (crc ^^^ b)) 0

/-- `GetSourceChar`: out-of-range indices fall back to the first source
char. -/
def GetSourceChar (index : Nat) : Nat :=
  if index < sourceChars.length then sourceChars.get! index else sourceChars.get! 0

/-- `GetPasswdOutward`: hex of PBKDF2 over the encType's salt. -/
def GetPasswdOutward (P : Prims) (password : List Nat) (encType : EncType) : List Nat :=
  let salt := match encType with
    | .aesctr => strBytes "AES-CTR"
    | .rc4md5 => strBytes "RC4-MD5"
    | .chacha20 => strBytes "ChaCha20"
  hexEncode (P.pbkdf2 password salt 1000 16)

/-- `EncodeName`: MixBase64 body plus a CRC-6 tail char taken from the
unpermuted source alphabet. -/
def EncodeName (P : Prims) (password : List Nat) (encType : EncType)
    (plainName : List Nat) : List Nat :=
  let passwdOutward := GetPasswdOutward P password encType
  let mix64 := NewMixBase64 P passwdOutward
  let encodedName := MixBase64.Encode mix64 plainName
  let crc6Bit := crc6Checksum (encodedName ++ passwdOutward)
  encodedName ++ [GetSourceChar crc6Bit]

/-- `DecodeName`: empty result (`""` in Go) signals failure — too-short
input, CRC mismatch, or Base64 decode error. -/
def DecodeName (P : Prims) (password : List Nat) (encType : EncType)
    (encodedName : List Nat) : List Nat :=
  if encodedName.length < 2 then []
  else
    let crc6Check := encodedName.get! (encodedName.length - 1)
    let passwdOutward := GetPasswdOutward P password encType
    let mix64 := NewMixBase64 P passwdOutward
    let subEncName := encodedName.take (encodedName.length - 1)
    let crc6Bit := crc6Checksum (subEncName ++ passwdOutward)
    if GetSourceChar crc6Bit ≠ crc6Check then []
    else
      match MixBase64.Decode mix64 subEncName with
      | none => []
      | some decoded => decoded

/-! ## Show-name conversion (`ConvertShowName`) -/

/-- `OrigPrefix = "orig_"` as bytes. -/
def origPre : List Nat := strBytes "orig_"

/-- Hex digit test of `net/url`. -/
def isHexChar (c : Nat) : Bool :=
  (48 ≤ c ∧ c ≤ 57) ∨ (97 ≤ c ∧ c ≤ 102) ∨ (65 ≤ c ∧ c ≤ 70)

/-- `url.QueryUnescape`: `%XX` decodes, `+` becomes space, malformed `%`
errors. -/
def queryUnescape : List Nat → Option (List Nat)
  | [] => some []
  | 37 :: a :: b :: rest =>
    if isHexChar a ∧ isHexChar b then
      (queryUnescape rest).map (fun t => (16 * hexDigitVal a + hexDigitVal b) :: t)
    else none
  | 37 :: _ => none
  | 43 :: rest => (queryUnescape rest).map (fun t => 32 :: t)
  | c :: rest => (queryUnescape rest).map (fun t => c :: t)

/-- `path.Base`. -/
def pathBase (s : List Nat) : List Nat :=
  if s = [] then [46]
  else
    let s1 := (s.reverse.dropWhile (fun c => c = 47)).reverse
    let base := (s1.reverse.takeWhile (fun c => c ≠ 47)).reverse
    if base = [] then [47] else base

/-- `path.Ext`: from the last dot of the last element to the end. -/
def pathExt (s : List Nat) : List Nat :=
  let tail := s.reverse.takeWhile (fun c => c ≠ 47)
  if tail.contains 46 then ((tail.takeWhile (fun c => c ≠ 46)) ++ [46]).reverse
  else []

/-- `strings.TrimSuffix`. -/
def trimSuffix (s suf : List Nat) : List Nat :=
  if suf.isSuffixOf s then s.take (s.length - suf.length) else s

/-- `ConvertShowName`: URL-unescape (keeping the input on error), take the
base name, strip the extension, try to decode; on failure prepend
`orig_`. -/
def ConvertShowName (P : Prims) (password : List Nat) (encType : EncType)
    (pathText : List Nat) : List Nat :=
  let decoded := (queryUnescape pathText).getD pathText
  let fileName := pathBase decoded
  let ext := pathExt fileName
  let encName := trimSuffix fileName ext
  let showName := DecodeName P password encType encName
  if showName = [] then origPre ++ fileName else showName

/-! ## Config parsing and path-policy resolution (`config.go`
`ParsePasswdList`, `dao/file.go` `findByPathInternal`, handler prefix
stripping).  Go strings are byte lists; decoded JSON values
(`interface{}`) are modelled by `JVal`. -/

/-- A decoded JSON value as produced by `encoding/json` into
`interface{}`. -/
inductive JVal where
  | jnull
  | jbool (b : Bool)
  | jnum (x : Int)
  | jstr (s : List Nat)
  | jarr (items : List JVal)
  | jobj (fields : List (List Nat × JVal))

/-- Go map lookup over the decoded object (later duplicate keys win). -/
def jlookup (fields : List (List Nat × JVal)) (key : List Nat) : Option JVal :=
  fields.reverse.lookup key

def getStringField (m : List (List Nat × JVal)) (key : List Nat) : List Nat :=
  match jlookup m key with
  | some (.jstr s) => s
  | _ => []

def getBoolField (m : List (List Nat × JVal)) (key : List Nat) : Bool :=
  match jlookup m key with
  | some (.jbool b) => b
  | _ => false

/-- `strings.Split` on a separator byte. -/
def splitByte (sep : Nat) : List Nat → List (List Nat)
  | [] => [[]]
  | c :: rest =>
    let r := splitByte sep rest
    if c = sep then [] :: r
    else
      match r with
      | h :: t => (c :: h) :: t
      | [] => [[c]]

def getStringArrayField (m : List (List Nat × JVal)) (key : List Nat) :
    List (List Nat) :=
  match jlookup m key with
  | some (.jarr arr) =>
    arr.foldr (fun v acc => match v with | .jstr s => s :: acc | _ => acc) []
  | some (.jstr s) => if s ≠ [] then splitByte 44 s else []
  | _ => []

/-- One parsed `PasswdInfo` rule. -/
structure PasswdInfo where
  password : List Nat
  encType : List Nat
  describe : List Nat
  enable : Bool
  encName : Bool
  encSuffix : List Nat
  encPath : List (List Nat)
deriving Inhabited, DecidableEq

/-- `ParsePasswdList`: each object item of the array becomes a rule; other
items are skipped. -/
def ParsePasswdList (raw : JVal) : List PasswdInfo :=
  match raw with
  | .jarr items =>
    items.foldr (fun item acc =>
      match item with
      | .jobj m =>
        { password := getStringField m (strBytes "password"),
          encType := getStringField m (strBytes "encType"),
          describe := getStringField m (strBytes "describe"),
          enable := getBoolField m (strBytes "enable"),
          encName := getBoolField m (strBytes "encName"),
          encSuffix := getStringField m (strBytes "encSuffix"),
          encPath := getStringArrayField m (strBytes "encPath") } :: acc
      | _ => acc) []
  | _ => []

/-- `PathExec` over an abstract regular-expression matcher `rmatch`
(pattern, path); a pattern that fails to compile never matches. -/
def PathExec (rmatch : List Nat → List Nat → Bool) (encPaths : List (List Nat))
    (urlPath : List Nat) : Bool :=
  encPaths.any (fun p => rmatch p urlPath)

/-- `PasswdDAO.findByPathInternal`: first enabled rule whose `encPath`
matches. -/
def findByPathInternal (rmatch : List Nat → List Nat → Bool)
    (rules : List PasswdInfo) (urlPath : List Nat) : Option PasswdInfo :=
  rules.find? (fun r => r.enable && PathExec rmatch r.encPath urlPath)

/-- `strings.TrimPrefix`. -/
def goTrimPre (s p : List Nat) : List Nat :=
  if p.isPrefixOf s then s.drop p.length else s

/-- The path `HandleDownload` queries the resolver with: the URL path
with a leading "/d" stripped, then a leading "/p" stripped. -/
def downloadResolvePath (urlPath : List Nat) : List Nat :=
  goTrimPre (goTrimPre urlPath (strBytes "/d")) (strBytes "/p")

/-- The path the WebDAV handlers query the resolver with: the URL path
with a leading "/dav" stripped. -/
def davResolvePath (urlPath : List Nat) : List Nat :=
  goTrimPre urlPath (strBytes "/dav")

/-- A one-rule configuration whose single pattern is `/e/.*`, used to
refute the claimed config-load expansion. -/
def cfgRawC7 : JVal :=
  JVal.jarr [JVal.jobj [
    (strBytes "password", JVal.jstr (strBytes "k")),
    (strBytes "enable", JVal.jbool true),
    (strBytes "encPath", JVal.jarr [JVal.jstr (strBytes "/e/.*")])]]

/-! ## Range parsing (`httputil` `ParseRange`) and the download decision
flow (`StreamProxy.ProxyDownloadDecrypt`). -/

/-- A byte range (`httputil.Range`), on mathematical integers standing for
`int64` (all arithmetic below stays far from the 64-bit boundaries). -/
structure GoRange where
  start : Int
  stop : Int
deriving DecidableEq, Inhabited

/-- The two error kinds of `ParseRange`: format errors and
`RequestedRangeNotSatisfiable`. -/
inductive RangeErr where
  | malformed
  | unsatisfiable (fileSize : Int)
deriving DecidableEq

/-- Go `unicode.IsSpace` on the ASCII range (all that headers contain). -/
def isSpaceByte (c : Nat) : Bool := c = 32 ∨ (9 ≤ c ∧ c ≤ 13)

/-- `strings.TrimSpace`. -/
def trimSpaceBytes (s : List Nat) : List Nat :=
  ((s.dropWhile isSpaceByte).reverse.dropWhile isSpaceByte).reverse

def isDigitByte (c : Nat) : Bool := 48 ≤ c ∧ c ≤ 57

/-- Value of a non-empty all-digit string. -/
def digitsVal (s : List Nat) : Option Nat :=
  if s ≠ [] ∧ s.all isDigitByte then
    some (s.foldl (fun a c => 10 * a + (c - 48)) 0)
  else none

/-- `strconv.ParseInt(s, 10, 64)`. -/
def parseInt64 (s : List Nat) : Option Int :=
  match s with
  | 43 :: rest => (digitsVal rest).bind
      (fun v => if (v : Int) ≤ 2 ^ 63 - 1 then some (v : Int) else none)
  | 45 :: rest => (digitsVal rest).bind
      (fun v => if (v : Int) ≤ 2 ^ 63 then some (-(v : Int)) else none)
  | _ => (digitsVal s).bind
      (fun v => if (v : Int) ≤ 2 ^ 63 - 1 then some (v : Int) else none)

/-- The per-spec loop of `ParseRange`: empty specs are skipped, the first
error aborts, a start past the file size is unsatisfiable and the end is
clamped. -/
def parseSpecs (fileSize : Int) : List (List Nat) → Except RangeErr (List GoRange)
  | [] => .ok []
  | sp :: rest =>
    let spec := trimSpaceBytes sp
    if spec = [] then parseSpecs fileSize rest
    else
      let parts := splitByte 45 spec
      if parts.length ≠ 2 then .error .malformed
      else
        let p0 := parts.get! 0
        let p1 := parts.get! 1
        let r0 : Except RangeErr GoRange :=
          if p0 = [] then
            match parseInt64 p1 with
            | none => .error .malformed
            | some suffix =>
              if suffix ≤ 0 then .error .malformed
              else
                let sfx := if fileSize < suffix then fileSize else suffix
                .ok ⟨fileSize - sfx, fileSize - 1⟩
          else if p1 = [] then
            match parseInt64 p0 with
            | none => .error .malformed
            | some start =>
              if start < 0 then .error .malformed else .ok ⟨start, fileSize - 1⟩
          else
            match parseInt64 p0, parseInt64 p1 with
            | some start, some stop =>
              if start < 0 ∨ stop < start then .error .malformed
              else .ok ⟨start, stop⟩
            | _, _ => .error .malformed
        match r0 with
        | .error e => .error e
        | .ok r =>
          if fileSize ≤ r.start then .error (.unsatisfiable fileSize)
          else
            let r1 := if fileSize ≤ r.stop then GoRange.mk r.start (fileSize - 1) else r
            (parseSpecs fileSize rest).map (fun l => r1 :: l)

/-- `ParseRange` (RFC 7233 subset): `.ok none` is "no (valid) range
present". -/
def ParseRange (rangeHeader : List Nat) (fileSize : Int) :
    Except RangeErr (Option (List GoRange)) :=
  if rangeHeader = [] then .ok none
  else if ¬ (strBytes "bytes=").isPrefixOf rangeHeader then .error .malformed
  else
    (parseSpecs fileSize (splitByte 44 (rangeHeader.drop 6))).map
      (fun ranges => if ranges = [] then none else some ranges)

/-- `Range.ContentLength`. -/
def GoRange.contentLength (r : GoRange) : Int :=
  if r.stop < r.start then 0
  else
    let l := r.stop - r.start + 1
    if l < 0 then 0 else l

/-- Decimal bytes of an `int64`. -/
def intDec (i : Int) : List Nat :=
  if i < 0 then 45 :: decBytes i.natAbs else decBytes i.natAbs

/-- `Range.ContentRangeHeader`: "bytes start-end/total". -/
def contentRangeHeader (r : GoRange) (total : Int) : List Nat :=
  strBytes "bytes " ++ intDec r.start ++ [45] ++ intDec r.stop ++ [47] ++ intDec total

/-- Index of the last occurrence of a byte (`strings.LastIndex` with a
one-byte separator). -/
def lastIndexByte (c : Nat) (s : List Nat) : Option Nat :=
  match (s.reverse).findIdx? (fun x => x = c) with
  | some k => some (s.length - 1 - k)
  | none => none

/-- `resolveFileSize`: cached size, else `Content-Range` total on a 206,
else `Content-Length`, else 0. -/
def resolveFileSize (cachedSize : Int) (status : Nat) (cr cl : List Nat) : Int :=
  if 0 < cachedSize then cachedSize
  else
    let fromCR : Option Int :=
      if status = 206 ∧ cr ≠ [] then
        match lastIndexByte 47 cr with
        | some idx =>
          match parseInt64 (cr.drop (idx + 1)) with
          | some total => if 0 < total then some total else none
          | none => none
        | none => none
      else none
    match fromCR with
    | some total => total
    | none =>
      if cl ≠ [] then
        match parseInt64 cl with
        | some size => if 0 < size then size else 0
        | none => 0
      else 0

/-- Observable outcome of `ProxyDownloadDecrypt`: response status, the
`Content-Range`/`Content-Length` headers set by the proxy, the response
body (`none` for the ChaCha20 overflow panic) and the cipher instance
created for the request. -/
structure DownloadOutcome where
  status : Nat
  contentRange : Option (List Nat)
  contentLength : Option (List Nat)
  body : Option (List Nat)
  cipher : Option FlowState

/-- `StreamProxy.ProxyDownloadDecrypt` as a function of the request and
the upstream response.  Note the order taken from the source: the file
size is resolved and `NewFlowEnc` is called *before* the `Range` header is
parsed; the 416 branch therefore runs with the cipher already created. -/
def ProxyDownloadDecrypt (P : Prims) (password : List Nat) (encType : EncType)
    (cachedSize : Int) (upStatus : Nat) (upContentRange upContentLength : List Nat)
    (upBody : List Nat) (rangeHeader : List Nat) : DownloadOutcome :=
  let fileSize := resolveFileSize cachedSize upStatus upContentRange upContentLength
  let flowEnc := NewFlowEnc P encType password fileSize.toNat
  match ParseRange rangeHeader fileSize with
  | .error _ =>
    { status := 416, contentRange := some (strBytes "bytes */" ++ intDec fileSize),
      contentLength := none, body := some [], cipher := some flowEnc }
  | .ok rangeReq =>
    let ranges := rangeReq.getD []
    if hr : rangeReq ≠ none ∧ ranges.length = 1 then
      let r := ranges.get! 0
      let flowEnc1 := FlowState.SetPosition P flowEnc r.start.toNat
      { status := 206,
        contentRange := some (contentRangeHeader r fileSize),
        contentLength := some (intDec r.contentLength),
        body := (FlowState.Encrypt P flowEnc1 upBody).map
          (fun x => x.2.take r.contentLength.toNat),
        cipher := some flowEnc1 }
    else
      { status := 200, contentRange := none,
        contentLength := some (intDec fileSize),
        body := (FlowState.Encrypt P flowEnc upBody).map (fun x => x.2),
        cipher := some flowEnc }

instance : DecidableEq (Except RangeErr (Option (List GoRange))) :=
  fun a b =>
    match a, b with
    | .ok x, .ok y => if h : x = y then isTrue (by rw [h]) else isFalse (by simp [h])
    | .error x, .error y =>
      if h : x = y then isTrue (by rw [h]) else isFalse (by simp [h])
    | .ok _, .error _ => isFalse (by simp)
    | .error _, .ok _ => isFalse (by simp)

/-- The property claim C8 asserts of a request with a bad `Range` header,
evaluated on the download model: 416 with `Content-Range: bytes */size`,
an empty body *and no cipher instance created*. -/
def claimC8Property (o : DownloadOutcome) (fileSize : Int) : Prop :=
  o.status = 416 ∧ o.contentRange = some (strBytes "bytes */" ++ intDec fileSize) ∧
  o.body = some [] ∧ o.cipher.isSome = false

/-! ## Redirect registry (`handler/proxy.go`: `HandleRedirect`,
`cleanupRedirects`, `RegisterRedirect`).  Times are integer nanosecond
timestamps. -/

/-- A `redirectInfo` entry. -/
structure RedirectInfo where
  url : List Nat
  fileSize : Int
  password : List Nat
  encType : List Nat
  expiresAt : Int
deriving DecidableEq

/-- Observable outcome of `HandleRedirect`. -/
inductive RedirectResult where
  | badRequest
  | notFound
  | served (url : List Nat) (fileSize : Int) (password : List Nat) (encType : List Nat)
deriving DecidableEq

/-- `HandleRedirect`: strip "/redirect/", reject an empty key, look the
key up, and serve the stored entry.  Note (from the source): the entry's
`ExpiresAt` is never consulted here. -/
def HandleRedirect (redirectMap : List (List Nat × RedirectInfo))
    (urlPath : List Nat) : RedirectResult :=
  let key := goTrimPre urlPath (strBytes "/redirect/")
  if key = [] then .badRequest
  else
    match redirectMap.lookup key with
    | none => .notFound
    | some info => .served info.url info.fileSize info.password info.encType

/-- `cleanupRedirects` (one sweep of the 5-minute background task):
delete every entry with `now.After(ExpiresAt)`. -/
def cleanupRedirects (redirectMap : List (List Nat × RedirectInfo)) (now : Int) :
    List (List Nat × RedirectInfo) :=
  redirectMap.filter (fun kv => ¬ kv.2.expiresAt < now)

/-- One hour in nanoseconds. -/
def hourNs : Int := 3600 * 1000000000

/-- The entry stored by `RegisterRedirect` (TTL = one hour from now). -/
def registerEntry (url : List Nat) (fileSize : Int) (password encType : List Nat)
    (now : Int) : RedirectInfo :=
  { url := url, fileSize := fileSize, password := password, encType := encType,
    expiresAt := now + hourNs }

/-- The property claim C9 asserts: an absent *or expired* key yields 404. -/
def claimC9Property (m : List (List Nat × RedirectInfo)) (now : Int)
    (key : List Nat) : Prop :=
  (m.lookup key = none ∨ (∃ info, m.lookup key = some info ∧ info.expiresAt < now)) →
  HandleRedirect m (strBytes "/redirect/" ++ key) = .notFound

/-- An expired concrete registry entry (expiry at time 0). -/
def c9Entry : RedirectInfo :=
  { url := strBytes "http://u", fileSize := 4096, password := strBytes "pw",
    encType := strBytes "aesctr", expiresAt := 0 }

/-- A one-entry registry holding the expired entry under key "k". -/
def c9Map : List (List Nat × RedirectInfo) := [(strBytes "k", c9Entry)]

/-! ## Byte-arithmetic lemmas -/

theorem natToBE_length (k v : Nat) : (natToBE k v).length = k := by
  induction k generalizing v with
  | zero => rfl
  | succ k ih => simp [natToBE, ih]

theorem natToBE_bytesOk (k v : Nat) : BytesOk (natToBE k v) := by
  induction k generalizing v with
  | zero => intro b hb; simp [natToBE] at hb
  | succ k ih =>
    intro b hb
    simp only [natToBE, List.mem_append, List.mem_singleton] at hb
    rcases hb with h | h
    · exact ih _ b h
    · subst h; exact Nat.mod_lt _ (by norm_num)

theorem beBytesToNat_append (l1 l2 : List Nat) :
    beBytesToNat (l1 ++ l2) = beBytesToNat l1 * 256 ^ l2.length + beBytesToNat l2 := by
  induction l2 using List.reverseRecOn with
  | nil => simp [beBytesToNat]
  | append_singleton l2 b ih =>
    simp only [beBytesToNat, List.foldl_append, List.foldl_cons, List.foldl_nil,
      ← List.append_assoc] at *
    rw [ih]
    simp [List.length_append, pow_succ]
    ring

theorem beBytesToNat_lt (l : List Nat) (h : BytesOk l) :
    beBytesToNat l < 256 ^ l.length := by
  induction l using List.reverseRecOn with
  | nil => simp [beBytesToNat]
  | append_singleton l b ih =>
    have hb : b < 256 := h b (by simp)
    have hl : BytesOk l := fun x hx => h x (by simp [hx])
    have := ih hl
    rw [beBytesToNat_append]
    simp only [beBytesToNat, List.foldl_cons, List.foldl_nil, List.length_append,
      List.length_singleton]
    calc beBytesToNat l * 256 ^ 1 + (256 * 0 + b)
        < (beBytesToNat l + 1) * 256 := by ring_nf; omega
    _ ≤ 256 ^ l.length * 256 := by
        have : beBytesToNat l + 1 ≤ 256 ^ l.length := this
        exact Nat.mul_le_mul_right _ this
    _ = 256 ^ (l.length + 1) := by rw [pow_succ]

theorem beBytesToNat_natToBE (k v : Nat) :
    beBytesToNat (natToBE k v) = v % 256 ^ k := by
  induction k generalizing v with
  | zero => simp [natToBE, beBytesToNat, Nat.mod_one]
  | succ k ih =>
    rw [natToBE, beBytesToNat_append, ih]
    have h1 : beBytesToNat [v % 256] = v % 256 := by simp [beBytesToNat]
    simp only [List.length_singleton, pow_one, h1]
    have h2 : (256 : Nat) ^ (k + 1) = 256 * 256 ^ k := by rw [pow_succ]; ring
    rw [h2, Nat.mod_mul]
    ring

theorem natToBE_beBytesToNat (l : List Nat) (h : BytesOk l) :
    natToBE l.length (beBytesToNat l) = l := by
  induction l using List.reverseRecOn with
  | nil => simp [natToBE, beBytesToNat]
  | append_singleton l b ih =>
    have hb : b < 256 := h b (by simp)
    have hl : BytesOk l := fun x hx => h x (by simp [hx])
    rw [beBytesToNat_append]
    have h1 : beBytesToNat [b] = b := by simp [beBytesToNat]
    simp only [List.length_append, List.length_singleton, pow_one, h1]
    rw [natToBE]
    have hdiv : (beBytesToNat l * 256 + b) / 256 = beBytesToNat l := by
      omega
    have hmod : (beBytesToNat l * 256 + b) % 256 = b := by
      omega
    rw [hdiv, hmod, ih hl]

/-! ## IV increment facts -/

theorem pow_256_8 : (256 : Nat) ^ 8 = 2 ^ 64 := by norm_num

/-- `incrementIV` viewed on big-endian values: it adds `count` modulo
`2^128`. -/
theorem incrementIV_beVal (iv : List Nat) (count : Nat) (hlen : iv.length = 16)
    (hok : BytesOk iv) (hc : count < 2 ^ 64) :
    beBytesToNat (AESCTR.incrementIV iv count) = (beBytesToNat iv + count) % 2 ^ 128 := by
  have hokT : BytesOk (iv.take 8) := fun b hb => hok b (List.mem_of_mem_take hb)
  have hokD : BytesOk (iv.drop 8) := fun b hb => hok b (List.mem_of_mem_drop hb)
  have hlenT : (iv.take 8).length = 8 := by simp [hlen]
  have hlenD : (iv.drop 8).length = 8 := by simp [hlen]
  have hdt : (iv.drop 8).take 8 = iv.drop 8 := List.take_of_length_le (le_of_eq hlenD)
  have hU : beBytesToNat (iv.take 8) < 2 ^ 64 := by
    have := beBytesToNat_lt _ hokT
    rwa [hlenT, pow_256_8] at this
  have hL : beBytesToNat (iv.drop 8) < 2 ^ 64 := by
    have := beBytesToNat_lt _ hokD
    rwa [hlenD, pow_256_8] at this
  have hsplit : beBytesToNat iv
      = beBytesToNat (iv.take 8) * 2 ^ 64 + beBytesToNat (iv.drop 8) := by
    conv_lhs => rw [← List.take_append_drop 8 iv]
    rw [beBytesToNat_append, hlenD, pow_256_8]
  set U := beBytesToNat (iv.take 8) with hUdef
  set L := beBytesToNat (iv.drop 8) with hLdef
  unfold AESCTR.incrementIV
  rw [hdt, ← hLdef]
  set newLower := (L + count) % 2 ^ 64 with hNL
  have hbe1 : beBytesToNat (iv.take 8 ++ natToBE 8 newLower)
      = U * 2 ^ 64 + newLower := by
    rw [beBytesToNat_append, natToBE_length, pow_256_8, beBytesToNat_natToBE,
      pow_256_8, Nat.mod_eq_of_lt (Nat.mod_lt _ (by norm_num))]
  by_cases hcase : newLower < L
  · simp only [hcase, if_true]
    have htk : (iv.take 8 ++ natToBE 8 newLower).take 8 = iv.take 8 := by
      rw [List.take_append_of_le_length (by rw [hlenT])]
      exact List.take_of_length_le (le_of_eq hlenT)
    have hdr : (iv.take 8 ++ natToBE 8 newLower).drop 8 = natToBE 8 newLower := by
      rw [List.drop_append_of_le_length (by rw [hlenT])]
      simp [List.drop_of_length_le (le_of_eq hlenT)]
    rw [htk, hdr, ← hUdef, beBytesToNat_append, natToBE_length, pow_256_8,
      beBytesToNat_natToBE, beBytesToNat_natToBE, pow_256_8, hsplit]
    have hnl2 : newLower % 2 ^ 64 = newLower := Nat.mod_eq_of_lt (Nat.mod_lt _ (by norm_num))
    rw [hnl2]
    -- overflow case: L + count ≥ 2^64
    have hover : 2 ^ 64 ≤ L + count := by
      by_contra hno
      push_neg at hno
      rw [hNL, Nat.mod_eq_of_lt hno] at hcase
      omega
    have hNLval : newLower = L + count - 2 ^ 64 := by
      rw [hNL]
      have : L + count < 2 ^ 64 + 2 ^ 64 := by omega
      omega
    have h64 : (2:Nat) ^ 64 * 2 ^ 64 = 2 ^ 128 := by norm_num
    rcases Nat.lt_or_ge (U + 1) (2 ^ 64) with hu1 | hu1
    · rw [Nat.mod_eq_of_lt hu1]
      rw [Nat.mod_eq_of_lt (by omega : U * 2 ^ 64 + L + count < 2 ^ 128)]
      omega
    · have hUeq : U = 2 ^ 64 - 1 := by omega
      have : (U + 1) % 2 ^ 64 = 0 := by omega
      rw [this]
      have hsum : U * 2 ^ 64 + L + count = 2 ^ 128 + newLower := by
        rw [hUeq, hNLval]; ring_nf; omega
      rw [hsum, Nat.add_mod_left, Nat.mod_eq_of_lt (by omega)]
      omega
  · simp only [hcase, if_false]
    rw [hbe1, hsplit]
    have hno : L + count < 2 ^ 64 := by
      by_contra hge
      push_neg at hge
      have : newLower = L + count - 2 ^ 64 := by
        rw [hNL]
        have : L + count < 2 ^ 64 + 2 ^ 64 := by omega
        omega
      omega
    rw [hNL, Nat.mod_eq_of_lt hno]
    have : U * 2 ^ 64 + L + count < 2 ^ 128 := by omega
    rw [Nat.mod_eq_of_lt this]
    ring

/-- `incrementIV` coincides with the specification's split-halves carry
formulation. -/
theorem incrementIV_eq_specSeekIV (iv : List Nat) (count : Nat)
    (hlen : iv.length = 16) (hok : BytesOk iv) (hc : count < 2 ^ 64) :
    AESCTR.incrementIV iv count = specSeekIV iv count := by
  have hokT : BytesOk (iv.take 8) := fun b hb => hok b (List.mem_of_mem_take hb)
  have hokD : BytesOk (iv.drop 8) := fun b hb => hok b (List.mem_of_mem_drop hb)
  have hlenT : (iv.take 8).length = 8 := by simp [hlen]
  have hlenD : (iv.drop 8).length = 8 := by simp [hlen]
  have hdt : (iv.drop 8).take 8 = iv.drop 8 := List.take_of_length_le (le_of_eq hlenD)
  have hU : beBytesToNat (iv.take 8) < 2 ^ 64 := by
    have := beBytesToNat_lt _ hokT
    rwa [hlenT, pow_256_8] at this
  have hL : beBytesToNat (iv.drop 8) < 2 ^ 64 := by
    have := beBytesToNat_lt _ hokD
    rwa [hlenD, pow_256_8] at this
  set U := beBytesToNat (iv.take 8) with hUdef
  set L := beBytesToNat (iv.drop 8) with hLdef
  unfold AESCTR.incrementIV specSeekIV
  rw [hdt, ← hLdef, ← hUdef]
  set newLower := (L + count) % 2 ^ 64 with hNL
  have htk : (iv.take 8 ++ natToBE 8 newLower).take 8 = iv.take 8 := by
    rw [List.take_append_of_le_length (by rw [hlenT])]
    exact List.take_of_length_le (le_of_eq hlenT)
  have hdr : (iv.take 8 ++ natToBE 8 newLower).drop 8 = natToBE 8 newLower := by
    rw [List.drop_append_of_le_length (by rw [hlenT])]
    simp [List.drop_of_length_le (le_of_eq hlenT)]
  have hiff : newLower < L ↔ 2 ^ 64 ≤ L + count := by
    constructor
    · intro hcase
      by_contra hno
      push_neg at hno
      rw [hNL, Nat.mod_eq_of_lt hno] at hcase
      omega
    · intro hover
      have : newLower = L + count - 2 ^ 64 := by
        rw [hNL]
        have : L + count < 2 ^ 64 + 2 ^ 64 := by omega
        omega
      omega
  by_cases hcase : newLower < L
  · simp only [hcase, if_true, hiff.mp hcase, htk, hdr, ← hUdef]
  · simp only [hcase, if_false]
    have : ¬ (2 ^ 64 ≤ L + count) := fun h => hcase (hiff.mpr h)
    simp only [this, if_false]
    have h8 : natToBE 8 U = iv.take 8 := by
      have h := natToBE_beBytesToNat (iv.take 8) hokT
      rwa [hlenT] at h
    rw [h8]

theorem dummyPrims_wf : dummyPrims.Wf := by
  refine ⟨fun d => ⟨by simp [dummyPrims], ?_⟩, fun d => ⟨by simp [dummyPrims], ?_⟩,
    fun pw salt iter dk => ⟨by simp [dummyPrims], ?_⟩,
    fun k blk => ⟨by simp [dummyPrims], ?_⟩, fun k n c => ⟨by simp [dummyPrims], ?_⟩⟩ <;>
  · intro b hb
    simp only [dummyPrims, List.mem_replicate] at hb
    omega

/-! ## Generic XOR/mapIdx lemmas -/

theorem mapIdx_xor_invol (k : Nat → Nat) :
    ∀ (data : List Nat),
      ((data.mapIdx (fun i b => b ^^^ k i)).mapIdx (fun i b => b ^^^ k i)) = data := by
  intro data
  induction data generalizing k with
  | nil => rfl
  | cons b rest ih =>
    rw [List.mapIdx_cons, List.mapIdx_cons]
    simp only [Nat.xor_assoc, Nat.xor_self, Nat.xor_zero]
    congr 1
    exact ih (fun i => k (i + 1))

theorem mapIdx_take (f : Nat → Nat → Nat) :
    ∀ (l : List Nat) (n : Nat), (l.mapIdx f).take n = (l.take n).mapIdx f := by
  intro l
  induction l generalizing f with
  | nil => intro n; simp
  | cons b rest ih =>
    intro n
    cases n with
    | zero => simp
    | succ n =>
      rw [List.mapIdx_cons, List.take_succ_cons, List.take_succ_cons, List.mapIdx_cons,
        ih (fun i => f (i + 1))]

theorem mapIdx_drop (f : Nat → Nat → Nat) :
    ∀ (l : List Nat) (p : Nat),
      (l.mapIdx f).drop p = (l.drop p).mapIdx (fun i => f (p + i)) := by
  intro l
  induction l generalizing f with
  | nil => intro p; simp
  | cons b rest ih =>
    intro p
    cases p with
    | zero => simp
    | succ p =>
      rw [List.mapIdx_cons, List.drop_succ_cons, List.drop_succ_cons,
        ih (fun i => f (i + 1)) p]
      congr 1
      funext i b
      congr 1
      omega

/-! ## Per-cipher keystream characterisation lemmas -/

theorem aes_ksByte_fresh (P : Prims) (pw : List Nat) (size i : Nat) :
    AESCTR.ksByte P (NewAESCTR P pw size) i
      = aesAbsKs P (NewAESCTR P pw size).key
          (beBytesToNat (NewAESCTR P pw size).ivCur) i := by
  simp [AESCTR.ksByte, aesAbsKs, NewAESCTR]

theorem aes_ksByte_setpos (P : Prims) (hP : P.Wf) (pw : List Nat)
    (size p i : Nat) (hp : p < 2 ^ 63) :
    AESCTR.ksByte P (AESCTR.SetPosition P (NewAESCTR P pw size) p) i
      = aesAbsKs P (NewAESCTR P pw size).key
          (beBytesToNat (NewAESCTR P pw size).ivCur) (p + i) := by
  obtain ⟨hmd5, -, -, -, -⟩ := hP
  have hlen : (P.md5 (decBytes size)).length = 16 := (hmd5 _).1
  have hok : BytesOk (P.md5 (decBytes size)) := (hmd5 _).2
  have hc : p / 16 < 2 ^ 64 := by omega
  have hiv := incrementIV_beVal (P.md5 (decBytes size)) (p / 16) hlen hok hc
  simp only [AESCTR.ksByte, AESCTR.SetPosition, NewAESCTR, aesAbsKs]
  rw [hiv]
  have h1 : ((beBytesToNat (P.md5 (decBytes size)) + p / 16) % 2 ^ 128
      + (p % 16 + i) / 16) % 2 ^ 128
      = (beBytesToNat (P.md5 (decBytes size)) + (p + i) / 16) % 2 ^ 128 := by
    rw [Nat.mod_add_mod]
    congr 1
    omega
  have h2 : (p % 16 + i) % 16 = (p + i) % 16 := by omega
  rw [h1, h2]

theorem cha_ksByte_fresh (P : Prims) (pw : List Nat) (size i : Nat) :
    ChaCha20Cipher.ksByte P (NewChaCha20 P pw size) i
      = chaAbsKs P (NewChaCha20 P pw size).key (NewChaCha20 P pw size).nonce i := by
  simp [ChaCha20Cipher.ksByte, chaAbsKs, NewChaCha20]

theorem cha_ksByte_setpos (P : Prims) (pw : List Nat) (size p i : Nat)
    (hp : p / 64 < 2 ^ 32) :
    ChaCha20Cipher.ksByte P (ChaCha20Cipher.SetPosition (NewChaCha20 P pw size) p) i
      = chaAbsKs P (NewChaCha20 P pw size).key (NewChaCha20 P pw size).nonce (p + i) := by
  simp only [ChaCha20Cipher.ksByte, ChaCha20Cipher.SetPosition, NewChaCha20, chaAbsKs]
  rw [Nat.mod_eq_of_lt hp]
  have h1 : p / 64 + (p % 64 + i) / 64 = (p + i) / 64 := by omega
  have h2 : (p % 64 + i) % 64 = (p + i) % 64 := by omega
  rw [h1, h2]

/-- `resetKSA` depends only on the position's segment. -/
theorem resetKSA_congr (hexKey : List Nat) (t u : Nat)
    (h : t / segmentPosition = u / segmentPosition) :
    RC4MD5.resetKSA hexKey t = RC4MD5.resetKSA hexKey u := by
  unfold RC4MD5.resetKSA
  rw [h]

/-- Stepping the canonical core within a segment. -/
theorem rc4Phi_succ (hexKey : List Nat) (t : Nat)
    (h : (t + 1) % segmentPosition ≠ 0) :
    rc4Phi hexKey (t + 1) = RC4Core.step (rc4Phi hexKey t) := by
  have hseg : segmentPosition = 1000000 := rfl
  have hdiv : (t + 1) / segmentPosition = t / segmentPosition := by
    rw [hseg] at h ⊢; omega
  have hmod : (t + 1) % segmentPosition = t % segmentPosition + 1 := by
    rw [hseg] at h ⊢; omega
  unfold rc4Phi RC4MD5.prgaAdvance
  rw [resetKSA_congr hexKey (t + 1) t hdiv, hmod, Function.iterate_succ_apply']

/-- Crossing a segment boundary resets the canonical core. -/
theorem rc4Phi_boundary (hexKey : List Nat) (t : Nat)
    (h : (t + 1) % segmentPosition = 0) :
    rc4Phi hexKey (t + 1) = RC4MD5.resetKSA hexKey (t + 1) := by
  unfold rc4Phi RC4MD5.prgaAdvance
  rw [h]
  rfl

/-- The RC4 encryption loop, characterised against the canonical core: if
the state is in sync with its absolute position, the output is the XOR with
the absolute keystream and the final state is in sync again. -/
theorem rc4_encrypt_phi :
    ∀ (data : List Nat) (r : RC4MD5), r.core = rc4Phi r.fileHexKey r.position →
    RC4MD5.Encrypt r data
      = ({ r with core := rc4Phi r.fileHexKey (r.position + data.length),
                  position := r.position + data.length },
         data.mapIdx (fun i b => b ^^^ rc4AbsKs r.fileHexKey (r.position + i))) := by
  intro data
  induction data with
  | nil =>
    intro r hcore
    simp only [RC4MD5.Encrypt, List.length_nil, Nat.add_zero, List.mapIdx_nil]
    rw [← hcore]
  | cons b rest ih =>
    intro r hcore
    have harith : r.position + 1 + rest.length = r.position + (rest.length + 1) := by
      omega
    have hfun : (fun i (b : Nat) => b ^^^ rc4AbsKs r.fileHexKey (r.position + 1 + i))
        = (fun i (b : Nat) => b ^^^ rc4AbsKs r.fileHexKey (r.position + (i + 1))) := by
      funext i b
      congr 2
      omega
    by_cases hb : (r.position + 1) % segmentPosition = 0
    · have hc' : RC4MD5.resetKSA r.fileHexKey (r.position + 1)
          = rc4Phi r.fileHexKey (r.position + 1) := (rc4Phi_boundary _ _ hb).symm
      simp only [RC4MD5.Encrypt, hb, if_true, List.mapIdx_cons]
      rw [ih { r with core := RC4MD5.resetKSA r.fileHexKey (r.position + 1),
                      position := r.position + 1 } (by simpa using hc')]
      dsimp only
      rw [harith, hfun, hcore]
      simp [rc4AbsKs]
    · have hc' : RC4Core.step r.core = rc4Phi r.fileHexKey (r.position + 1) := by
        rw [hcore, ← rc4Phi_succ _ _ hb]
      simp only [RC4MD5.Encrypt, hb, if_false, List.mapIdx_cons]
      rw [ih { r with core := RC4Core.step r.core, position := r.position + 1 }
        (by simpa using hc')]
      dsimp only
      rw [harith, hfun, hcore]
      simp [rc4AbsKs]

/-- A fresh RC4 instance is in sync with the canonical core at position 0. -/
theorem rc4_fresh_core (P : Prims) (pw : List Nat) (size : Nat) :
    (NewRC4MD5 P pw size).core
      = rc4Phi (NewRC4MD5 P pw size).fileHexKey (NewRC4MD5 P pw size).position := rfl

/-- Encrypting from a fresh cipher XORs with the absolute keystream from
offset 0 (whenever Go would not panic). -/
theorem flow_fresh_char (P : Prims) (et : EncType) (pw : List Nat) (size : Nat)
    (data : List Nat) (st : FlowState) (out : List Nat)
    (h : FlowState.Encrypt P (NewFlowEnc P et pw size) data = some (st, out)) :
    out = data.mapIdx (fun i b => b ^^^ flowKsFun P et pw size i) := by
  cases et with
  | aesctr =>
    simp only [FlowState.Encrypt, NewFlowEnc, AESCTR.Encrypt, Option.some.injEq,
      Prod.mk.injEq] at h
    rw [← h.2]
    congr 1
    funext i b
    rw [aes_ksByte_fresh]
    rfl
  | rc4md5 =>
    simp only [FlowState.Encrypt, NewFlowEnc] at h
    rw [rc4_encrypt_phi data _ (rc4_fresh_core P pw size)] at h
    simp only [Option.some.injEq, Prod.mk.injEq] at h
    rw [← h.2]
    simp only [NewRC4MD5, flowKsFun, Nat.zero_add]
  | chacha20 =>
    simp only [FlowState.Encrypt, NewFlowEnc, ChaCha20Cipher.Encrypt] at h
    by_cases hb : (NewChaCha20 P pw size).counter0
        + ((NewChaCha20 P pw size).consumed + data.length + 63) / 64 ≤ 2 ^ 32
    · rw [if_pos hb] at h
      simp only [Option.map_some', Option.some.injEq, Prod.mk.injEq] at h
      rw [← h.2]
      congr 1
      funext i b
      rw [cha_ksByte_fresh]
      rfl
    · rw [if_neg hb] at h
      simp at h

/-- The ChaCha20 panic bound, recovered from a successful fresh
encryption. -/
theorem flow_fresh_bound (P : Prims) (pw : List Nat) (size : Nat)
    (data : List Nat) (x : FlowState × List Nat)
    (h : FlowState.Encrypt P (NewFlowEnc P .chacha20 pw size) data = some x) :
    (data.length + 63) / 64 ≤ 2 ^ 32 := by
  simp only [FlowState.Encrypt, NewFlowEnc, ChaCha20Cipher.Encrypt] at h
  by_cases hb : (NewChaCha20 P pw size).counter0
      + ((NewChaCha20 P pw size).consumed + data.length + 63) / 64 ≤ 2 ^ 32
  · simpa [NewChaCha20] using hb
  · rw [if_neg hb] at h
    simp at h

/-- Success of a fresh encryption only depends on the data length. -/
theorem flow_fresh_some_of_length (P : Prims) (et : EncType) (pw : List Nat)
    (size : Nat) (data1 data2 : List Nat) (x : FlowState × List Nat)
    (h : FlowState.Encrypt P (NewFlowEnc P et pw size) data1 = some x)
    (hlen : data2.length = data1.length) :
    ∃ y, FlowState.Encrypt P (NewFlowEnc P et pw size) data2 = some y := by
  cases et with
  | aesctr => exact ⟨_, rfl⟩
  | rc4md5 => exact ⟨_, rfl⟩
  | chacha20 =>
    have hb := flow_fresh_bound P pw size data1 x h
    simp only [FlowState.Encrypt, NewFlowEnc, ChaCha20Cipher.Encrypt, NewChaCha20]
    rw [hlen]
    have hb2 : (0 : Nat) + (0 + data1.length + 63) / 64 ≤ 2 ^ 32 := by
      simpa using hb
    simp only [hb2, if_true, Option.map_some]
    exact ⟨_, rfl⟩

/-- Encrypting after `SetPosition p` XORs with the absolute keystream from
offset `p` (for in-range ChaCha20 counters). -/
theorem flow_setpos_encrypt (P : Prims) (hP : P.Wf) (et : EncType) (pw : List Nat)
    (size p : Nat) (data : List Nat) (hp63 : p < 2 ^ 63)
    (hcha : et = .chacha20 → p / 64 < 2 ^ 32 ∧
      p / 64 + (p % 64 + data.length + 63) / 64 ≤ 2 ^ 32) :
    (FlowState.Encrypt P (FlowState.SetPosition P (NewFlowEnc P et pw size) p)
        data).map Prod.snd
      = some (data.mapIdx (fun i b => b ^^^ flowKsFun P et pw size (p + i))) := by
  cases et with
  | aesctr =>
    simp only [NewFlowEnc, FlowState.SetPosition, FlowState.Encrypt, AESCTR.Encrypt,
      Option.map_some']
    congr 2
    funext i b
    rw [aes_ksByte_setpos P hP pw size p i hp63]
    rfl
  | rc4md5 =>
    simp only [NewFlowEnc, FlowState.SetPosition, FlowState.Encrypt]
    rw [rc4_encrypt_phi data (RC4MD5.SetPosition (NewRC4MD5 P pw size) p) rfl]
    simp only [Option.map_some', Option.some.injEq]
    rfl
  | chacha20 =>
    obtain ⟨htrunc, hbound⟩ := hcha rfl
    have hks : ∀ i, ChaCha20Cipher.ksByte P
        (ChaCha20Cipher.SetPosition (NewChaCha20 P pw size) p) i
        = chaAbsKs P (NewChaCha20 P pw size).key (NewChaCha20 P pw size).nonce (p + i) :=
      fun i => cha_ksByte_setpos P pw size p i htrunc
    simp only [NewFlowEnc, FlowState.SetPosition, FlowState.Encrypt,
      ChaCha20Cipher.Encrypt]
    rw [if_pos]
    · simp only [Option.map_some', Option.some.injEq]
      congr 1
      funext i b
      rw [hks i]
      rfl
    · dsimp only [ChaCha20Cipher.SetPosition]
      rw [Nat.mod_eq_of_lt htrunc]
      exact hbound

/-- Encrypting nothing after a seek always succeeds and produces nothing. -/
theorem flow_setpos_nil (P : Prims) (et : EncType) (pw : List Nat) (size p : Nat) :
    (FlowState.Encrypt P (FlowState.SetPosition P (NewFlowEnc P et pw size) p)
        []).map Prod.snd = some [] := by
  cases et with
  | aesctr => rfl
  | rc4md5 => rfl
  | chacha20 =>
    simp only [NewFlowEnc, FlowState.SetPosition, FlowState.Encrypt,
      ChaCha20Cipher.Encrypt]
    rw [if_pos]
    · rfl
    · dsimp only [ChaCha20Cipher.SetPosition, List.length_nil]
      have h1 : p / 64 % 2 ^ 32 < 2 ^ 32 := Nat.mod_lt _ (by norm_num)
      have h2 : p % 64 < 64 := Nat.mod_lt _ (by norm_num)
      omega

/-- C1: for every encType in {aesctr, rc4md5, chacha20}, every non-empty
password, every fileSize > 0 and every byte array data, creating a cipher
with (password, fileSize), encrypting data, then creating a second cipher
with the same parameters and decrypting the result yields the original
data byte-for-byte (both ciphers starting at position 0). -/
theorem claim_C1_cipher_roundtrip (P : Prims) (et : EncType) (pw : List Nat)
    (size : Nat) (data ct : List Nat) (hP : P.Wf) (hpw : pw ≠ [])
    (hsize : 0 < size) (hdata : BytesOk data)
    (henc : (FlowState.Encrypt P (NewFlowEnc P et pw size) data).map Prod.snd
      = some ct) :
    (FlowState.Encrypt P (NewFlowEnc P et pw size) ct).map Prod.snd = some data := by
  cases hE : FlowState.Encrypt P (NewFlowEnc P et pw size) data with
  | none => rw [hE] at henc; simp at henc
  | some x =>
    rw [hE] at henc
    simp only [Option.map_some', Option.some.injEq] at henc
    have hct : ct = data.mapIdx (fun i b => b ^^^ flowKsFun P et pw size i) := by
      rw [← henc]
      exact flow_fresh_char P et pw size data x.1 x.2 (by rw [hE])
    have hlen : ct.length = data.length := by rw [hct]; simp
    obtain ⟨y, hy⟩ := flow_fresh_some_of_length P et pw size data ct x hE hlen
    have hout : y.2 = ct.mapIdx (fun i b => b ^^^ flowKsFun P et pw size i) :=
      flow_fresh_char P et pw size ct y.1 y.2 (by rw [hy])
    rw [hy]
    simp only [Option.map_some', Option.some.injEq]
    rw [hout, hct, mapIdx_xor_invol]

/-- Witness for C1 at a concrete input (aesctr, password "k", size 3,
data [1,2,3], trivial primitives). -/
theorem claim_C1_witness :
    (FlowState.Encrypt dummyPrims
        (NewFlowEnc dummyPrims .aesctr (strBytes "k") 3) [1, 2, 3]).map Prod.snd
      = some [1, 2, 3] :=
  claim_C1_cipher_roundtrip dummyPrims .aesctr (strBytes "k") 3 [1, 2, 3] [1, 2, 3]
    dummyPrims_wf (by decide) (by decide) (by unfold BytesOk; decide) (by decide)

/-- C2: for every encType, password, size and offsets `p`, `n` with
`p + n ≤ size`, decrypting the ciphertext bytes at offsets `[p, p+n)` on a
fresh cipher seeked with `SetPosition p` equals bytes `[p, p+n)` of the
full decryption from position 0 — the keystream at an absolute offset is a
pure function of `(encType, password, totalFileSize, offset)`. -/
theorem claim_C2_seek_correctness (P : Prims) (et : EncType) (pw : List Nat)
    (size p n : Nat) (ct full : List Nat) (hP : P.Wf) (hp63 : p < 2 ^ 63)
    (hpn : p + n ≤ size) (hct : ct.length = size)
    (hfull : (FlowState.Encrypt P (NewFlowEnc P et pw size) ct).map Prod.snd
      = some full) :
    (FlowState.Encrypt P (FlowState.SetPosition P (NewFlowEnc P et pw size) p)
        ((ct.drop p).take n)).map Prod.snd = some ((full.drop p).take n) := by
  cases hE : FlowState.Encrypt P (NewFlowEnc P et pw size) ct with
  | none => rw [hE] at hfull; simp at hfull
  | some x =>
    rw [hE] at hfull
    simp only [Option.map_some', Option.some.injEq] at hfull
    have hchar : full = ct.mapIdx (fun i b => b ^^^ flowKsFun P et pw size i) := by
      rw [← hfull]
      exact flow_fresh_char P et pw size ct x.1 x.2 (by rw [hE])
    have hslice : (full.drop p).take n
        = ((ct.drop p).take n).mapIdx
            (fun i b => b ^^^ flowKsFun P et pw size (p + i)) := by
      rw [hchar, mapIdx_drop, mapIdx_take]
    rcases Nat.eq_zero_or_pos n with hn | hn
    · subst hn
      simp only [List.take_zero] at hslice ⊢
      rw [hslice]
      exact flow_setpos_nil P et pw size p
    · have hlen : ((ct.drop p).take n).length = n := by
        simp [hct]
        omega
      rw [hslice]
      refine flow_setpos_encrypt P hP et pw size p ((ct.drop p).take n) hp63 ?_
      intro hcha
      subst hcha
      have hb := flow_fresh_bound P pw size ct x hE
      rw [hct] at hb
      rw [hlen]
      omega

/-- Witness for C2 at a concrete input (aesctr, password "k", size 3,
p = 1, n = 2, ciphertext [5,6,7], trivial primitives). -/
theorem claim_C2_witness :
    (FlowState.Encrypt dummyPrims
        (FlowState.SetPosition dummyPrims
          (NewFlowEnc dummyPrims .aesctr (strBytes "k") 3) 1)
        (([5, 6, 7].drop 1).take 2)).map Prod.snd
      = some (([5, 6, 7].drop 1).take 2) :=
  claim_C2_seek_correctness dummyPrims .aesctr (strBytes "k") 3 1 2 [5, 6, 7] [5, 6, 7]
    dummyPrims_wf (by decide) (by decide) (by decide) (by decide)

/-- ChaCha20 encryption output only depends on key, nonce, counter and
consumed count (not on the bookkeeping `position`). -/
theorem cha_encrypt_snd_congr (P : Prims) (c1 c2 : ChaCha20Cipher)
    (hk : c1.key = c2.key) (hn : c1.nonce = c2.nonce)
    (hc0 : c1.counter0 = c2.counter0) (hcons : c1.consumed = c2.consumed)
    (data : List Nat) :
    (ChaCha20Cipher.Encrypt P c1 data).map Prod.snd
      = (ChaCha20Cipher.Encrypt P c2 data).map Prod.snd := by
  unfold ChaCha20Cipher.Encrypt ChaCha20Cipher.ksByte
  rw [hk, hn, hc0, hcons]
  by_cases hg : c2.counter0 + (c2.consumed + data.length + 63) / 64 ≤ 2 ^ 32
  · rw [if_pos hg, if_pos hg]
    rfl
  · rw [if_neg hg, if_neg hg]

/-- C10: `ChaCha20Cipher.SetPosition` truncates the block counter to 32
bits — it sets the counter to `(p/64) mod 2^32` and discards `p mod 64`
bytes, so positions agreeing modulo `64·2^32` produce identical keystream;
the counter is the untruncated `p/64` only below `64·2^32` bytes, whereas
the AES-CTR seek carries `p/16` into the full 128-bit IV. -/
theorem claim_C10_chacha_setposition_truncation (P : Prims) (pw : List Nat)
    (size p q : Nat) (hP : P.Wf) (hp63 : p < 2 ^ 63)
    (hmod : p % 64 = q % 64) (hdiv : p / 64 % 2 ^ 32 = q / 64 % 2 ^ 32) :
    (((NewChaCha20 P pw size).SetPosition p).counter0 = p / 64 % 2 ^ 32) ∧
    (((NewChaCha20 P pw size).SetPosition p).consumed = p % 64) ∧
    (∀ data, (ChaCha20Cipher.Encrypt P ((NewChaCha20 P pw size).SetPosition p)
          data).map Prod.snd
      = (ChaCha20Cipher.Encrypt P ((NewChaCha20 P pw size).SetPosition q)
          data).map Prod.snd) ∧
    (p < 64 * 2 ^ 32 → ((NewChaCha20 P pw size).SetPosition p).counter0 = p / 64) ∧
    (beBytesToNat ((AESCTR.SetPosition P (NewAESCTR P pw size) p).ivCur)
      = (beBytesToNat (P.md5 (decBytes size)) + p / 16) % 2 ^ 128) := by
  obtain ⟨hmd5, -, -, -, -⟩ := hP
  refine ⟨rfl, rfl, ?_, ?_, ?_⟩
  · intro data
    have hc0 : ((NewChaCha20 P pw size).SetPosition p).counter0
        = ((NewChaCha20 P pw size).SetPosition q).counter0 := hdiv
    have hcons : ((NewChaCha20 P pw size).SetPosition p).consumed
        = ((NewChaCha20 P pw size).SetPosition q).consumed := hmod
    exact cha_encrypt_snd_congr P ((NewChaCha20 P pw size).SetPosition p)
      ((NewChaCha20 P pw size).SetPosition q) rfl rfl hc0 hcons data
  · intro hlt
    dsimp [ChaCha20Cipher.SetPosition]
    have : p / 64 < 2 ^ 32 := by omega
    exact Nat.mod_eq_of_lt this
  · dsimp [AESCTR.SetPosition, NewAESCTR]
    exact incrementIV_beVal _ _ (hmd5 _).1 (hmd5 _).2 (by omega)

/-- Witness for C10 at `p = 64·2^32` and `q = 0`: the seek at 256 GiB
collides with the seek at offset 0. -/
theorem claim_C10_witness :
    ((NewChaCha20 dummyPrims (strBytes "k") 3).SetPosition (64 * 2 ^ 32)).counter0
        = 64 * 2 ^ 32 / 64 % 2 ^ 32 ∧
    ((NewChaCha20 dummyPrims (strBytes "k") 3).SetPosition (64 * 2 ^ 32)).consumed
        = 64 * 2 ^ 32 % 64 ∧
    (∀ data, (ChaCha20Cipher.Encrypt dummyPrims
          ((NewChaCha20 dummyPrims (strBytes "k") 3).SetPosition (64 * 2 ^ 32))
          data).map Prod.snd
      = (ChaCha20Cipher.Encrypt dummyPrims
          ((NewChaCha20 dummyPrims (strBytes "k") 3).SetPosition 0)
          data).map Prod.snd) ∧
    (64 * 2 ^ 32 < 64 * 2 ^ 32 →
      ((NewChaCha20 dummyPrims (strBytes "k") 3).SetPosition
          (64 * 2 ^ 32)).counter0 = 64 * 2 ^ 32 / 64) ∧
    (beBytesToNat ((AESCTR.SetPosition dummyPrims
          (NewAESCTR dummyPrims (strBytes "k") 3) (64 * 2 ^ 32)).ivCur)
      = (beBytesToNat (dummyPrims.md5 (decBytes 3)) + 64 * 2 ^ 32 / 16) % 2 ^ 128) :=
  claim_C10_chacha_setposition_truncation dummyPrims (strBytes "k") 3
    (64 * 2 ^ 32) 0 dummyPrims_wf (by norm_num) (by norm_num) (by norm_num)

/-- C3: AES key/IV derivation and the seek arithmetic, stated against the
specification formulas. -/
theorem claim_C3_aesctr_derivation (P : Prims) (pw : List Nat) (size p : Nat)
    (hP : P.Wf) (hp63 : p < 2 ^ 63) :
    (NewAESCTR P pw size).key = specAESKey P pw size ∧
    (NewAESCTR P pw size).ivCur = specAESIV P size ∧
    (AESCTR.SetPosition P (NewAESCTR P pw size) p).ivCur
        = specSeekIV (specAESIV P size) (p / 16) ∧
    (AESCTR.SetPosition P (NewAESCTR P pw size) p).consumed = p % 16 ∧
    (AESCTR.SetPosition P (NewAESCTR P pw size) p).position = p := by
  obtain ⟨hmd5, -, -, -, -⟩ := hP
  refine ⟨rfl, rfl, ?_, rfl, rfl⟩
  dsimp [AESCTR.SetPosition, NewAESCTR, specAESIV]
  exact incrementIV_eq_specSeekIV _ _ (hmd5 _).1 (hmd5 _).2 (by omega)

/-- Witness for C3 at password "k", size 3, p = 35. -/
theorem claim_C3_witness :
    (NewAESCTR dummyPrims (strBytes "k") 3).key = specAESKey dummyPrims (strBytes "k") 3 ∧
    (NewAESCTR dummyPrims (strBytes "k") 3).ivCur = specAESIV dummyPrims 3 ∧
    (AESCTR.SetPosition dummyPrims (NewAESCTR dummyPrims (strBytes "k") 3) 35).ivCur
        = specSeekIV (specAESIV dummyPrims 3) (35 / 16) ∧
    (AESCTR.SetPosition dummyPrims (NewAESCTR dummyPrims (strBytes "k") 3) 35).consumed
        = 35 % 16 ∧
    (AESCTR.SetPosition dummyPrims (NewAESCTR dummyPrims (strBytes "k") 3) 35).position
        = 35 :=
  claim_C3_aesctr_derivation dummyPrims (strBytes "k") 3 35 dummyPrims_wf (by norm_num)

/-- The fileHexKey of a fresh RC4-MD5 instance, in specification terms. -/
theorem fileHexKey_as_spec (P : Prims) (pw : List Nat) (size : Nat) :
    (NewRC4MD5 P pw size).fileHexKey
      = hexEncode (P.md5 (specRC4Outward P pw ++ decBytes size)) := rfl

/-- `resetKSA` is the KSA over the specification's segment key. -/
theorem resetKSA_as_spec (P : Prims) (pw : List Nat) (size t : Nat) :
    RC4MD5.resetKSA (NewRC4MD5 P pw size).fileHexKey t
      = RC4MD5.initKSA
          (specRC4SegKey (specRC4BaseKey P pw size) (t / segmentPosition)) := by
  unfold RC4MD5.resetKSA
  congr 1

/-- C4: RC4-MD5 key derivation and 1,000,000-byte segmentation, stated
against the specification formulas: the hex key, the seek (segment re-key
plus `p mod 1_000_000` PRGA discards) and the re-keying performed while
streaming from offset 0. -/
theorem claim_C4_rc4md5_derivation (P : Prims) (pw : List Nat) (size p : Nat) :
    (NewRC4MD5 P pw size).fileHexKey
        = hexEncode (P.md5 (specRC4Outward P pw ++ decBytes size)) ∧
    hexDecode (NewRC4MD5 P pw size).fileHexKey = specRC4BaseKey P pw size ∧
    (RC4MD5.SetPosition (NewRC4MD5 P pw size) p).core
        = RC4MD5.prgaAdvance
            (RC4MD5.initKSA (specRC4SegKey (specRC4BaseKey P pw size)
              (p / segmentPosition)))
            (p % segmentPosition) ∧
    (RC4MD5.SetPosition (NewRC4MD5 P pw size) p).position = p ∧
    (∀ data : List Nat,
      (RC4MD5.Encrypt (NewRC4MD5 P pw size) data).1.core
        = RC4MD5.prgaAdvance
            (RC4MD5.initKSA (specRC4SegKey (specRC4BaseKey P pw size)
              (data.length / segmentPosition)))
            (data.length % segmentPosition)) := by
  refine ⟨fileHexKey_as_spec P pw size, ?_, ?_, rfl, ?_⟩
  · rw [fileHexKey_as_spec]
    rfl
  · show RC4MD5.prgaAdvance (RC4MD5.resetKSA (NewRC4MD5 P pw size).fileHexKey p)
        (p % segmentPosition) = _
    rw [resetKSA_as_spec]
  · intro data
    rw [rc4_encrypt_phi data _ (rc4_fresh_core P pw size)]
    show RC4MD5.prgaAdvance (RC4MD5.resetKSA (NewRC4MD5 P pw size).fileHexKey _)
        (_ % segmentPosition) = _
    rw [resetKSA_as_spec]
    have hpos0 : (NewRC4MD5 P pw size).position = 0 := rfl
    rw [hpos0, Nat.zero_add]

/-! ## Alphabet permutation facts -/

theorem get!_set_self (l : List Nat) (i x : Nat) (h : i < l.length) :
    (l.set i x).get! i = x := by
  rw [List.get!_eq_getElem!, getElem!_pos _ _ (by simpa using h)]
  simp [List.getElem_set_self]

theorem get!_set_ne (l : List Nat) (i j x : Nat) (h : j < l.length) (hne : i ≠ j) :
    (l.set i x).get! j = l.get! j := by
  rw [List.get!_eq_getElem!, List.get!_eq_getElem!,
    getElem!_pos (l.set i x) j (by simpa using h), getElem!_pos l j h]
  exact List.getElem_set_ne (by omega) ..

/-- Pulling an element out of a list by one replacement is a permutation. -/
theorem cons_set_perm : ∀ (l : List Nat) (j y : Nat), j < l.length →
    ((l.get! j) :: l.set j y).Perm (y :: l) := by
  intro l
  induction l with
  | nil => intro j y h; simp at h
  | cons a t ih =>
    intro j y h
    cases j with
    | zero =>
      simp only [List.get!_cons_zero, List.set_cons_zero]
      exact List.Perm.swap y a t
    | succ j =>
      have hj : j < t.length := by simpa using h
      rw [List.get!_cons_succ, List.set_cons_succ]
      have h1 : (t.get! j :: a :: t.set j y).Perm (a :: t.get! j :: t.set j y) :=
        List.Perm.swap a (t.get! j) _
      have h2 : (a :: t.get! j :: t.set j y).Perm (a :: y :: t) :=
        List.Perm.cons a (ih j y hj)
      have h3 : (a :: y :: t).Perm (y :: a :: t) := List.Perm.swap y a t
      exact (h1.trans h2).trans h3

/-- An in-place swap of two positions is a permutation. -/
theorem swap_set_perm : ∀ (l : List Nat) (i j : Nat), i < l.length → j < l.length →
    ((l.set i (l.get! j)).set j (l.get! i)).Perm l := by
  intro l
  induction l with
  | nil => intro i j h; simp at h
  | cons a t ih =>
    intro i j hi hj
    cases i with
    | zero =>
      cases j with
      | zero => simp
      | succ j =>
        have hjt : j < t.length := by simpa using hj
        simp only [List.get!_cons_zero, List.get!_cons_succ, List.set_cons_zero,
          List.set_cons_succ]
        exact cons_set_perm t j a hjt
    | succ i =>
      cases j with
      | zero =>
        have hit : i < t.length := by simpa using hi
        simp only [List.get!_cons_zero, List.get!_cons_succ, List.set_cons_zero,
          List.set_cons_succ]
        have h1 := cons_set_perm t i a hit
        have h2 : (t.set i a).get! i = a := get!_set_self t i a hit
        have hgs : (a :: t).set (i + 1) a = a :: t.set i a := List.set_cons_succ ..
        exact cons_set_perm t i a hit
      | succ j =>
        have hit : i < t.length := by simpa using hi
        have hjt : j < t.length := by simpa using hj
        simp only [List.get!_cons_succ, List.set_cons_succ]
        exact List.Perm.cons a (ih i j hit hjt)

/-- The KSA fold preserves the S-box up to permutation. -/
theorem ksa_fold_perm (n : Nat) (K : List Nat) (hn : 0 < n) :
    ∀ (idxs : List Nat) (st : List Nat × Nat), (∀ i ∈ idxs, i < n) →
      st.1.length = n → ((idxs.foldl (ksaStep n K) st).1).Perm st.1 := by
  intro idxs
  induction idxs with
  | nil => intro st h hlen; exact List.Perm.refl _
  | cons i rest ih =>
    intro st h hlen
    have hi : i < n := h i (by simp)
    have hrest : ∀ x ∈ rest, x < n := fun x hx => h x (by simp [hx])
    rw [List.foldl_cons]
    have hj : (st.2 + st.1.get! i + K.get! i) % n < n := Nat.mod_lt _ hn
    have hperm : (ksaStep n K st i).1.Perm st.1 := by
      unfold ksaStep
      exact swap_set_perm st.1 i _ (by omega) (by omega)
    have hlen' : (ksaStep n K st i).1.length = n := by
      rw [hperm.length_eq, hlen]
    exact (ih (ksaStep n K st i) hrest hlen').trans hperm

/-- `(range l.length).map l.get!` rebuilds the list. -/
theorem map_get!_range : ∀ (l : List Nat), (List.range l.length).map l.get! = l := by
  intro l
  induction l with
  | nil => rfl
  | cons a t ih =>
    rw [List.length_cons, List.range_succ_eq_map, List.map_cons, List.map_map]
    have hhd : (a :: t).get! 0 = a := List.get!_cons_zero ..
    have htl : ((a :: t).get! ∘ Nat.succ) = t.get! := funext fun i =>
      List.get!_cons_succ ..
    rw [hhd, htl, ih]

/-- The shuffled secret is a permutation of the source alphabet. -/
theorem initKSA_perm (P : Prims) (passwd : List Nat) :
    (initKSA P passwd).Perm sourceChars := by
  unfold initKSA
  have hn : 0 < sourceChars.length := by decide
  have hperm := ksa_fold_perm sourceChars.length
    ((List.range sourceChars.length).map
      (fun i => (P.sha256 passwd).get! (i % (P.sha256 passwd).length)))
    hn (List.range sourceChars.length) (List.range sourceChars.length, 0)
    (fun i hi => List.mem_range.mp hi) (by simp)
  have h2 := hperm.map (fun idx => sourceChars.get! idx)
  have h3 : (List.range sourceChars.length).map (fun idx => sourceChars.get! idx)
      = sourceChars := by
    have h4 := map_get!_range sourceChars
    simpa using h4
  rw [h3] at h2
  exact h2

/-- With a non-64-byte password the MixBase64 alphabet is exactly the
shuffled secret. -/
theorem mix_chars_eq (P : Prims) (passwd : List Nat) (h : passwd.length ≠ 64) :
    (NewMixBase64 P passwd).chars = initKSA P (passwd ++ strBytes "mix64") := by
  have hlen : (initKSA P (passwd ++ strBytes "mix64")).length = 65 := by
    rw [(initKSA_perm P (passwd ++ strBytes "mix64")).length_eq]
    decide
  unfold NewMixBase64
  rw [if_neg h]
  dsimp only
  rw [if_pos (by rw [hlen]; norm_num)]
  have h65 : List.range 65
      = List.range 64 ++ [64] := by decide
  have hrebuild := map_get!_range (initKSA P (passwd ++ strBytes "mix64"))
  rw [hlen, h65, List.map_append, List.map_cons, List.map_nil] at hrebuild
  exact hrebuild

theorem mix_chars_perm (P : Prims) (passwd : List Nat) (h : passwd.length ≠ 64) :
    (NewMixBase64 P passwd).chars.Perm sourceChars := by
  rw [mix_chars_eq P passwd h]
  exact initKSA_perm P _

theorem nodup_get!_inj (l : List Nat) (hnd : l.Nodup) (i k : Nat)
    (hi : i < l.length) (hk : k < l.length) (h : l.get! i = l.get! k) : i = k := by
  rw [List.get!_eq_getElem!, List.get!_eq_getElem!, getElem!_pos l i hi,
    getElem!_pos l k hk] at h
  exact (List.Nodup.getElem_inj_iff hnd).mp h

/-- The decode-map fold finds the unique index of an alphabet char. -/
theorem lookup_fold_eq (m : MixBase64) (b k : Nat)
    (huniq : ∀ i, i < 65 → m.chars.get! i = b → i = k) :
    ∀ (idxs : List Nat) (acc : Option Nat), (∀ i ∈ idxs, i < 65) →
    ((k ∈ idxs ∧ m.chars.get! k = b) ∨ acc = some k) →
    idxs.foldl (fun acc i => if m.chars.get! i = b then some i else acc) acc = some k := by
  intro idxs
  induction idxs with
  | nil =>
    intro acc hbound hinv
    rcases hinv with ⟨hmem, -⟩ | hacc
    · simp at hmem
    · simpa using hacc
  | cons i rest ih =>
    intro acc hbound hinv
    rw [List.foldl_cons]
    by_cases hib : m.chars.get! i = b
    · have hik : i = k := huniq i (hbound i (by simp)) hib
      rw [if_pos hib]
      refine ih _ (fun x hx => hbound x (by simp [hx])) (Or.inr ?_)
      rw [hik]
    · rw [if_neg hib]
      refine ih _ (fun x hx => hbound x (by simp [hx])) ?_
      rcases hinv with ⟨hmem, hkb⟩ | hacc
      · rcases List.mem_cons.mp hmem with hik | hmem2
        · exact absurd (hik ▸ hkb) hib
        · exact Or.inl ⟨hmem2, hkb⟩
      · exact Or.inr hacc

/-- Looking up the alphabet char at index `k` recovers `k`. -/
theorem lookup_get! (m : MixBase64) (hnd : m.chars.Nodup)
    (hlen : m.chars.length = 65) (k : Nat) (hk : k < 65) :
    m.lookup (m.chars.get! k) = some k := by
  unfold MixBase64.lookup
  refine lookup_fold_eq m (m.chars.get! k) k ?_ (List.range 65) none
    (fun i hi => List.mem_range.mp hi) (Or.inl ⟨List.mem_range.mpr hk, rfl⟩)
  intro i hi hib
  exact nodup_get!_inj m.chars hnd i k (by omega) (by omega) hib

/-- `lor` of bit-disjoint parts is addition. -/
theorem lor_disjoint : ∀ (k a b : Nat), b < 2 ^ k → (2 ^ k * a) ||| b = 2 ^ k * a + b := by
  intro k
  induction k with
  | zero =>
    intro a b hb
    interval_cases b
    simp
  | succ k ih =>
    intro a b hb
    have hb2 : b / 2 < 2 ^ k := by omega
    have h1 : 2 ^ (k + 1) * a = Nat.bit false (2 ^ k * a) := by
      simp [Nat.bit]
      ring
    have h2 : b = Nat.bit (b % 2 = 1) (b / 2) := by
      simp only [Nat.bit]
      rcases Nat.mod_two_eq_zero_or_one b with h | h <;> simp [h] <;> omega
    rw [h1, h2, Nat.lor_bit, ih _ _ hb2]
    rcases Nat.mod_two_eq_zero_or_one b with h | h <;>
      simp [h, Nat.bit] <;> ring_nf <;> omega

theorem hexEncode_length (bs : List Nat) : (hexEncode bs).length = 2 * bs.length := by
  induction bs with
  | nil => rfl
  | cons b rest ih => simp [hexEncode] at ih ⊢; omega

/-- Encoded output length is a multiple of 4. -/
theorem encode_len_mod4 (m : MixBase64) : ∀ data, (MixBase64.Encode m data).length % 4 = 0 := by
  intro data
  induction data using MixBase64.Encode.induct m with
  | case1 b0 b1 b2 rest ih => simp [MixBase64.Encode]; omega
  | case2 b0 => simp [MixBase64.Encode]
  | case3 b0 b1 => simp [MixBase64.Encode]
  | case4 => rfl

/-- A non-empty input encodes to at least one full group. -/
theorem encode_len_pos (m : MixBase64) : ∀ data, data ≠ [] →
    4 ≤ (MixBase64.Encode m data).length := by
  intro data
  induction data using MixBase64.Encode.induct m with
  | case1 b0 b1 b2 rest ih => intro h; simp [MixBase64.Encode]
  | case2 b0 => intro h; simp [MixBase64.Encode]
  | case3 b0 b1 => intro h; simp [MixBase64.Encode]
  | case4 => intro h; simp at h

/-- Encoded length is `4 * ceil(n / 3)`. -/
theorem encode_length (m : MixBase64) : ∀ data,
    (MixBase64.Encode m data).length = 4 * ((data.length + 2) / 3) := by
  intro data
  induction data using MixBase64.Encode.induct m with
  | case1 b0 b1 b2 rest ih => simp [MixBase64.Encode] at ih ⊢; omega
  | case2 b0 => simp [MixBase64.Encode]
  | case3 b0 b1 => simp [MixBase64.Encode]
  | case4 => rfl

/-- A suffix shorter than the right part of an append is a suffix of that
part alone. -/
theorem suffix_append_iff (p l2 : List Nat) (h : p.length ≤ l2.length) :
    ∀ l1 : List Nat, (p <:+ l1 ++ l2 ↔ p <:+ l2) := by
  intro l1
  induction l1 with
  | nil => simp
  | cons a l1 ih =>
    rw [List.cons_append, List.suffix_cons_iff]
    constructor
    · rintro (hp | hp)
      · have := congrArg List.length hp
        simp at this
        omega
      · exact ih.mp hp
    · intro hp
      exact Or.inr (ih.mpr hp)

/-- Alphabet chars below the pad index differ from the pad char. -/
theorem chars_ne_pad (m : MixBase64) (hnd : m.chars.Nodup)
    (hlen : m.chars.length = 65) (i : Nat) (hi : i < 64) :
    m.chars.get! i ≠ m.chars.get! 64 := by
  intro h
  have := nodup_get!_inj m.chars hnd i 64 (by omega) (by omega) h
  omega

/-- The padding adjustment computed by `Decode` on an encoder output is
determined by the input length modulo 3. -/
theorem encode_pad_adj (m : MixBase64) (hnd : m.chars.Nodup)
    (hlen : m.chars.length = 65) :
    ∀ data, data ≠ [] → BytesOk data →
    ((if ([m.chars.get! 64, m.chars.get! 64].isSuffixOf
          (MixBase64.Encode m data) : Bool) then 2
      else if ([m.chars.get! 64].isSuffixOf (MixBase64.Encode m data) : Bool) then 1
      else 0) : Nat)
      = (3 - data.length % 3) % 3 := by
  intro data
  induction data using MixBase64.Encode.induct m with
  | case1 b0 b1 b2 rest ih =>
    intro hne hok
    have hokr : BytesOk rest := fun x hx => hok x (by simp [hx])
    have hb2 : b2 < 256 := hok b2 (by simp)
    rcases List.eq_nil_or_concat rest with hrest | ⟨r0, rr, hrest⟩
    · subst hrest
      have hc4 : m.chars.get! (b2 % 64) ≠ m.chars.get! 64 :=
        chars_ne_pad m hnd hlen _ (by omega)
      simp only [MixBase64.Encode]
      rw [if_neg, if_neg]
      · simp
      · rw [List.isSuffixOf_iff_suffix, List.suffix_iff_eq_drop]
        simp only [List.length_cons, List.length_nil, List.length_singleton]
        intro hcontra
        have : m.chars.get! (b2 % 64) = m.chars.get! 64 := by
          have h4 := congrArg (fun l => l.get! 0) hcontra
          simpa using h4.symm
        exact hc4 this
      · rw [List.isSuffixOf_iff_suffix, List.suffix_iff_eq_drop]
        simp only [List.length_cons, List.length_nil]
        intro hcontra
        have : m.chars.get! (b2 % 64) = m.chars.get! 64 := by
          have h4 := congrArg (fun l => l.get! 1) hcontra
          simpa using h4.symm
        exact hc4 this
    · have hrne : rest ≠ [] := by subst hrest; simp
      have hlen4 : 4 ≤ (MixBase64.Encode m rest).length := encode_len_pos m rest hrne
      have hmod : (b0 :: b1 :: b2 :: rest).length % 3 = rest.length % 3 := by
        simp
        omega
      rw [hmod]
      have hstep : MixBase64.Encode m (b0 :: b1 :: b2 :: rest)
          = [m.chars.get! (b0 / 4), m.chars.get! ((b0 % 4) * 16 + b1 / 16),
             m.chars.get! ((b1 % 16) * 4 + b2 / 64), m.chars.get! (b2 % 64)]
            ++ MixBase64.Encode m rest := by
        simp [MixBase64.Encode]
      rw [hstep]
      have hs2 : ∀ x y : Nat, ([x, y].isSuffixOf ([m.chars.get! (b0 / 4),
          m.chars.get! ((b0 % 4) * 16 + b1 / 16),
          m.chars.get! ((b1 % 16) * 4 + b2 / 64), m.chars.get! (b2 % 64)]
            ++ MixBase64.Encode m rest) : Bool)
          = ([x, y].isSuffixOf (MixBase64.Encode m rest) : Bool) := by
        intro x y
        have hiff := suffix_append_iff [x, y] (MixBase64.Encode m rest)
          (by simp only [List.length_cons, List.length_nil]; omega)
          [m.chars.get! (b0 / 4), m.chars.get! ((b0 % 4) * 16 + b1 / 16),
           m.chars.get! ((b1 % 16) * 4 + b2 / 64), m.chars.get! (b2 % 64)]
        rw [← List.isSuffixOf_iff_suffix, ← List.isSuffixOf_iff_suffix] at hiff
        exact Bool.eq_iff_iff.mpr hiff
      have hs1 : ∀ x : Nat, ([x].isSuffixOf ([m.chars.get! (b0 / 4),
          m.chars.get! ((b0 % 4) * 16 + b1 / 16),
          m.chars.get! ((b1 % 16) * 4 + b2 / 64), m.chars.get! (b2 % 64)]
            ++ MixBase64.Encode m rest) : Bool)
          = ([x].isSuffixOf (MixBase64.Encode m rest) : Bool) := by
        intro x
        have hiff := suffix_append_iff [x] (MixBase64.Encode m rest)
          (by simp only [List.length_cons, List.length_nil]; omega)
          [m.chars.get! (b0 / 4), m.chars.get! ((b0 % 4) * 16 + b1 / 16),
           m.chars.get! ((b1 % 16) * 4 + b2 / 64), m.chars.get! (b2 % 64)]
        rw [← List.isSuffixOf_iff_suffix, ← List.isSuffixOf_iff_suffix] at hiff
        exact Bool.eq_iff_iff.mpr hiff
      rw [hs2, hs1]
      exact ih hrne hokr
  | case2 b0 =>
    intro hne hok
    simp only [MixBase64.Encode]
    rw [if_pos]
    · simp
    · rw [List.isSuffixOf_iff_suffix, List.suffix_iff_eq_drop]
      simp
  | case3 b0 b1 =>
    intro hne hok
    have hb1 : b1 < 256 := hok b1 (by simp)
    have hc3 : m.chars.get! ((b1 % 16) * 4) ≠ m.chars.get! 64 :=
      chars_ne_pad m hnd hlen _ (by omega)
    simp only [MixBase64.Encode]
    rw [if_neg, if_pos]
    · simp
    · rw [List.isSuffixOf_iff_suffix, List.suffix_iff_eq_drop]
      simp
    · rw [List.isSuffixOf_iff_suffix, List.suffix_iff_eq_drop]
      simp only [List.length_cons, List.length_nil]
      intro hcontra
      have : m.chars.get! ((b1 % 16) * 4) = m.chars.get! 64 := by
        have h4 := congrArg (fun l => l.get! 0) hcontra
        simpa using h4.symm
      exact hc3 this
  | case4 =>
    intro hne hok
    exact absurd rfl hne

/-- First byte reconstruction in `Decode`. -/
theorem decode_recon1 (b0 y : Nat) (hb0 : b0 < 256) (hy : y < 16) :
    ((b0 / 4 * 4) ||| ((b0 % 4 * 16 + y) / 16)) % 256 = b0 := by
  have h1 : (b0 % 4 * 16 + y) / 16 = b0 % 4 := by omega
  rw [h1, show b0 / 4 * 4 = 2 ^ 2 * (b0 / 4) by ring,
    lor_disjoint 2 (b0 / 4) (b0 % 4) (by omega)]
  omega

/-- Second byte reconstruction in `Decode`. -/
theorem decode_recon2 (x b1 z : Nat) (hb1 : b1 < 256) (hz : z < 4) :
    (((x * 16 + b1 / 16) % 16) * 16 ||| ((b1 % 16 * 4 + z) / 4)) % 256 = b1 := by
  have h1 : (x * 16 + b1 / 16) % 16 = b1 / 16 := by omega
  have h2 : (b1 % 16 * 4 + z) / 4 = b1 % 16 := by omega
  rw [h1, h2, show b1 / 16 * 16 = 2 ^ 4 * (b1 / 16) by ring,
    lor_disjoint 4 (b1 / 16) (b1 % 16) (by omega)]
  omega

/-- Third byte reconstruction in `Decode`. -/
theorem decode_recon3 (y b2 : Nat) (hb2 : b2 < 256) :
    (((y * 4 + b2 / 64) % 4) * 64 ||| (b2 % 64)) % 256 = b2 := by
  have h1 : (y * 4 + b2 / 64) % 4 = b2 / 64 := by omega
  rw [h1, show b2 / 64 * 64 = 2 ^ 6 * (b2 / 64) by ring,
    lor_disjoint 6 (b2 / 64) (b2 % 64) (by omega)]
  omega

/-- The decode loop inverts the encoder (given enough capacity). -/
theorem decodeLoop_encode (m : MixBase64) (hnd : m.chars.Nodup)
    (hlen : m.chars.length = 65) :
    ∀ data, BytesOk data → ∀ size j : Nat, j + data.length ≤ size →
    MixBase64.decodeLoop m size (MixBase64.Encode m data) j = some data := by
  intro data
  induction data using MixBase64.Encode.induct m with
  | case1 b0 b1 b2 rest ih =>
    intro hok size j hcap
    have hb0 : b0 < 256 := hok b0 (by simp)
    have hb1 : b1 < 256 := hok b1 (by simp)
    have hb2 : b2 < 256 := hok b2 (by simp)
    have hokr : BytesOk rest := fun x hx => hok x (by simp [hx])
    have hcap' : j + 3 + rest.length ≤ size := by
      simp only [List.length_cons] at hcap
      omega
    simp only [MixBase64.Encode, MixBase64.decodeLoop]
    rw [lookup_get! m hnd hlen (b0 / 4) (by omega),
      lookup_get! m hnd hlen (b0 % 4 * 16 + b1 / 16) (by omega),
      lookup_get! m hnd hlen (b1 % 16 * 4 + b2 / 64) (by omega),
      lookup_get! m hnd hlen (b2 % 64) (by omega)]
    dsimp only
    simp only [List.length_cons] at hcap
    rw [if_pos (by omega), if_pos (by refine ⟨by omega, by omega⟩),
      if_pos (by refine ⟨by omega, by omega⟩)]
    rw [ih hokr size (j + 3) hcap']
    simp only [Option.map_some', Option.some.injEq]
    rw [decode_recon1 b0 (b1 / 16) hb0 (by omega),
      decode_recon2 (b0 % 4) b1 (b2 / 64) hb1 (by omega),
      decode_recon3 (b1 % 16) b2 hb2]
  | case2 b0 =>
    intro hok size j hcap
    have hb0 : b0 < 256 := hok b0 (by simp)
    simp only [MixBase64.Encode, MixBase64.decodeLoop]
    rw [lookup_get! m hnd hlen (b0 / 4) (by omega),
      lookup_get! m hnd hlen (b0 % 4 * 16) (by omega),
      lookup_get! m hnd hlen 64 (by omega)]
    dsimp only
    simp only [List.length_cons, List.length_nil] at hcap
    rw [if_pos (by omega), if_neg (by simp), if_neg (by simp)]
    simp only [MixBase64.decodeLoop, Option.map_some', Option.some.injEq]
    rw [show b0 % 4 * 16 = b0 % 4 * 16 + 0 by omega,
      decode_recon1 b0 0 hb0 (by omega)]
  | case3 b0 b1 =>
    intro hok size j hcap
    have hb0 : b0 < 256 := hok b0 (by simp)
    have hb1 : b1 < 256 := hok b1 (by simp)
    simp only [MixBase64.Encode, MixBase64.decodeLoop]
    rw [lookup_get! m hnd hlen (b0 / 4) (by omega),
      lookup_get! m hnd hlen (b0 % 4 * 16 + b1 / 16) (by omega),
      lookup_get! m hnd hlen (b1 % 16 * 4) (by omega),
      lookup_get! m hnd hlen 64 (by omega)]
    dsimp only
    simp only [List.length_cons, List.length_nil] at hcap
    rw [if_pos (by omega), if_pos (by refine ⟨by omega, by omega⟩), if_neg (by simp)]
    simp only [MixBase64.decodeLoop, Option.map_some', Option.some.injEq]
    rw [decode_recon1 b0 (b1 / 16) hb0 (by omega),
      show b1 % 16 * 4 = b1 % 16 * 4 + 0 by omega,
      decode_recon2 (b0 % 4) b1 0 hb1 (by omega)]
  | case4 =>
    intro hok size j hcap
    rfl

/-- `Decode` inverts `Encode` for distinct alphabets. -/
theorem decode_encode (m : MixBase64) (hnd : m.chars.Nodup)
    (hlen : m.chars.length = 65) (data : List Nat) (hne : data ≠ [])
    (hok : BytesOk data) :
    MixBase64.Decode m (MixBase64.Encode m data) = some data := by
  unfold MixBase64.Decode
  have hpos := encode_len_pos m data hne
  rw [if_neg (by omega), if_neg (by simp [encode_len_mod4 m data])]
  have hn3 : data.length ≠ 0 := fun h => hne (List.eq_nil_of_length_eq_zero h)
  have hsize : ((MixBase64.Encode m data).length / 4) * 3 -
      (if ([m.chars.get! 64, m.chars.get! 64].isSuffixOf
            (MixBase64.Encode m data) : Bool) then 2
        else if ([m.chars.get! 64].isSuffixOf (MixBase64.Encode m data) : Bool) then 1
        else 0) = data.length := by
    rw [encode_pad_adj m hnd hlen data hne hok, encode_length m data]
    omega
  show MixBase64.decodeLoop m
      ((MixBase64.Encode m data).length / 4 * 3 -
        (if ([m.chars.get! 64, m.chars.get! 64].isSuffixOf
              (MixBase64.Encode m data) : Bool) then 2
          else if ([m.chars.get! 64].isSuffixOf (MixBase64.Encode m data) : Bool) then 1
          else 0))
      (MixBase64.Encode m data) 0 = some data
  rw [hsize]
  exact decodeLoop_encode m hnd hlen data hok data.length 0 (by omega)

theorem get!_concat (l : List Nat) (x : Nat) : (l ++ [x]).get! l.length = x := by
  rw [List.get!_eq_getElem!, getElem!_pos (l ++ [x]) l.length (by simp)]
  simp

/-- The MixBase64 alphabet derived from an outward key is duplicate-free
and 65 chars long. -/
theorem outward_chars_facts (P : Prims) (hP : P.Wf) (password : List Nat)
    (encType : EncType) :
    (NewMixBase64 P (GetPasswdOutward P password encType)).chars.Nodup ∧
    (NewMixBase64 P (GetPasswdOutward P password encType)).chars.length = 65 := by
  obtain ⟨-, -, hpb, -, -⟩ := hP
  have hlen32 : (GetPasswdOutward P password encType).length = 32 := by
    unfold GetPasswdOutward
    rw [hexEncode_length, (hpb _ _ _ _).1]
  have hperm := mix_chars_perm P (GetPasswdOutward P password encType) (by omega)
  constructor
  · exact hperm.nodup_iff.mpr (by decide)
  · rw [hperm.length_eq]
    decide

/-- C5: for every password, every encType and every non-empty filename,
`DecodeName` inverts `EncodeName`. -/
theorem claim_C5_filename_roundtrip (P : Prims) (password : List Nat)
    (encType : EncType) (name : List Nat) (hP : P.Wf) (hne : name ≠ [])
    (hok : BytesOk name) :
    DecodeName P password encType (EncodeName P password encType name) = name := by
  obtain ⟨hnd, hlen⟩ := outward_chars_facts P hP password encType
  set m := NewMixBase64 P (GetPasswdOutward P password encType) with hm
  have hpos := encode_len_pos m name hne
  unfold EncodeName DecodeName
  have hlenc : (MixBase64.Encode m name
      ++ [GetSourceChar (crc6Checksum (MixBase64.Encode m name
          ++ GetPasswdOutward P password encType))]).length
      = (MixBase64.Encode m name).length + 1 := by simp
  rw [if_neg (by rw [hlenc]; omega)]
  rw [hlenc]
  have hm1 : (MixBase64.Encode m name).length + 1 - 1 = (MixBase64.Encode m name).length := by
    omega
  rw [hm1, get!_concat, List.take_left]
  rw [if_neg (by simp)]
  rw [decode_encode m hnd hlen name hne hok]

/-- Witness for C5 at password "k", aesctr, name "holiday". -/
theorem claim_C5_witness :
    DecodeName dummyPrims (strBytes "k") .aesctr
      (EncodeName dummyPrims (strBytes "k") .aesctr (strBytes "holiday"))
      = strBytes "holiday" :=
  claim_C5_filename_roundtrip dummyPrims (strBytes "k") .aesctr (strBytes "holiday")
    dummyPrims_wf (by decide) (by unfold BytesOk; decide)

/-- C6: a name whose CRC-6 tail does not match the recomputed tail is
rejected — `DecodeName` returns failure (the empty string) — and a name
whose base fails decoding surfaces from `ConvertShowName` as the literal
file name prefixed with "orig_". -/
theorem claim_C6_crc_rejection (P : Prims) (pw : List Nat) (et : EncType)
    (encodedName pathText : List Nat) (hlen2 : 2 ≤ encodedName.length)
    (hmm : GetSourceChar (crc6Checksum (encodedName.take (encodedName.length - 1)
        ++ GetPasswdOutward P pw et)) ≠ encodedName.get! (encodedName.length - 1)) :
    DecodeName P pw et encodedName = [] ∧
    (DecodeName P pw et (trimSuffix (pathBase ((queryUnescape pathText).getD pathText))
        (pathExt (pathBase ((queryUnescape pathText).getD pathText)))) = [] →
      ConvertShowName P pw et pathText
        = origPre ++ pathBase ((queryUnescape pathText).getD pathText)) := by
  constructor
  · unfold DecodeName
    rw [if_neg (by omega), if_pos hmm]
  · intro hfail
    simp only [ConvertShowName]
    rw [if_pos hfail]

/-- Witness for C6: "ab" has a mismatching tail under the trivial
primitives, and "x.txt" (whose base "x" cannot decode) surfaces as
"orig_x.txt". -/
theorem claim_C6_witness :
    DecodeName dummyPrims (strBytes "k") .aesctr (strBytes "ab") = [] ∧
    (DecodeName dummyPrims (strBytes "k") .aesctr
        (trimSuffix (pathBase ((queryUnescape (strBytes "x.txt")).getD (strBytes "x.txt")))
          (pathExt (pathBase ((queryUnescape (strBytes "x.txt")).getD (strBytes "x.txt")))))
        = [] →
      ConvertShowName dummyPrims (strBytes "k") .aesctr (strBytes "x.txt")
        = origPre ++ pathBase ((queryUnescape (strBytes "x.txt")).getD
            (strBytes "x.txt"))) :=
  claim_C6_crc_rejection dummyPrims (strBytes "k") .aesctr (strBytes "ab")
    (strBytes "x.txt") (by decide) (by decide)

theorem goTrimPre_append (p q : List Nat) : goTrimPre (p ++ q) p = q := by
  unfold goTrimPre
  rw [if_pos (by rw [List.isPrefixOf_iff_prefix]; exact List.prefix_append p q)]
  exact List.drop_left p q

/-- C7 counterexample: parsing the configuration expands nothing — the
parsed rule does not contain the `/d`, `/p` or `/dav` variant of its
pattern. -/
theorem claim_C7_counterexample :
    ¬ (∀ r ∈ ParsePasswdList cfgRawC7, ∀ p ∈ [strBytes "/e/.*"],
        strBytes "/d" ++ p ∈ r.encPath ∧ strBytes "/p" ++ p ∈ r.encPath ∧
        strBytes "/dav" ++ p ∈ r.encPath) := by
  intro h
  have h1 := h ((ParsePasswdList cfgRawC7).get! 0) (by decide) (strBytes "/e/.*")
    (by decide)
  revert h1
  decide

/-- C7 (amended): `ParsePasswdList` copies the configured `encPath`
patterns verbatim — no `/d`, `/p`, `/dav` variants are added at config
load.  Instead the handlers strip prefixes from the request path before
querying the resolver: the WebDAV handler strips a leading "/dav", so
"/dav" ++ q resolves exactly as q; the download handler strips a leading
"/d" and then a leading "/p" sequentially, so "/p" ++ q resolves as q,
while "/d" ++ q resolves as q with a further leading "/p" stripped —
equal to q exactly when q does not itself start with "/p", and otherwise
mangled, e.g. "/d/photos/a.jpg" is resolved as "hotos/a.jpg". -/
theorem claim_C7_prefix_stripping :
    (∀ m : List (List Nat × JVal),
      (ParsePasswdList (.jarr [.jobj m])).map (fun r => r.encPath)
        = [getStringArrayField m (strBytes "encPath")]) ∧
    (∀ q : List Nat,
      downloadResolvePath (strBytes "/d" ++ q) = goTrimPre q (strBytes "/p")) ∧
    (∀ q : List Nat,
      goTrimPre q (strBytes "/p")
        = if (strBytes "/p").isPrefixOf q then q.drop 2 else q) ∧
    (∀ q : List Nat, downloadResolvePath (strBytes "/p" ++ q) = q) ∧
    (∀ q : List Nat, davResolvePath (strBytes "/dav" ++ q) = q) ∧
    downloadResolvePath (strBytes "/d/photos/a.jpg") = strBytes "hotos/a.jpg" ∧
    (∀ (rmatch : List Nat → List Nat → Bool) (rules : List PasswdInfo)
        (q : List Nat),
      findByPathInternal rmatch rules (downloadResolvePath (strBytes "/d" ++ q))
        = findByPathInternal rmatch rules (goTrimPre q (strBytes "/p"))) := by
  have h2 : ∀ q : List Nat,
      downloadResolvePath (strBytes "/d" ++ q) = goTrimPre q (strBytes "/p") := by
    intro q
    unfold downloadResolvePath
    rw [goTrimPre_append]
  refine ⟨fun m => rfl, h2, ?_, ?_, ?_, by decide,
    fun rmatch rules q => by rw [h2 q]⟩
  · intro q
    have hlen : (strBytes "/p").length = 2 := rfl
    unfold goTrimPre
    rw [hlen]
  · intro q
    unfold downloadResolvePath
    have hfalse : (strBytes "/d").isPrefixOf (strBytes "/p" ++ q) = false := rfl
    have hdp : goTrimPre (strBytes "/p" ++ q) (strBytes "/d") = strBytes "/p" ++ q := by
      unfold goTrimPre
      rw [if_neg (by rw [hfalse]; simp)]
    rw [hdp, goTrimPre_append]
  · intro q
    unfold davResolvePath
    exact goTrimPre_append _ _

/-- C8 counterexample: for a 100-byte file and `Range: bytes=200-300`
(unsatisfiable) the proxy does answer 416 with the right header and empty
body, but a cipher instance *was* created — `NewFlowEnc` runs before
`ParseRange`. -/
theorem claim_C8_counterexample :
    ¬ claimC8Property
      (ProxyDownloadDecrypt dummyPrims (strBytes "k") .aesctr 100 200 [] [] []
        (strBytes "bytes=200-300")) 100 := by
  intro h
  have h4 := h.2.2.2
  revert h4
  decide

/-- C8 (amended): on a malformed or unsatisfiable `Range` header the proxy
responds 416 with `Content-Range: bytes */<size>` and an empty body, but
the cipher instance has already been created for the request
(`NewFlowEnc` is called before the range check). -/
theorem claim_C8_bad_range (P : Prims) (password : List Nat) (encType : EncType)
    (cachedSize : Int) (upStatus : Nat) (upCR upCL upBody rangeHeader : List Nat)
    (e : RangeErr)
    (herr : ParseRange rangeHeader
        (resolveFileSize cachedSize upStatus upCR upCL) = .error e) :
    (ProxyDownloadDecrypt P password encType cachedSize upStatus upCR upCL upBody
        rangeHeader).status = 416 ∧
    (ProxyDownloadDecrypt P password encType cachedSize upStatus upCR upCL upBody
        rangeHeader).contentRange
      = some (strBytes "bytes */"
          ++ intDec (resolveFileSize cachedSize upStatus upCR upCL)) ∧
    (ProxyDownloadDecrypt P password encType cachedSize upStatus upCR upCL upBody
        rangeHeader).body = some [] ∧
    (ProxyDownloadDecrypt P password encType cachedSize upStatus upCR upCL upBody
        rangeHeader).cipher
      = some (NewFlowEnc P encType password
          (resolveFileSize cachedSize upStatus upCR upCL).toNat) := by
  simp only [ProxyDownloadDecrypt]
  rw [herr]
  exact ⟨rfl, rfl, rfl, rfl⟩

/-- Witness for the amended C8 at the concrete unsatisfiable input. -/
theorem claim_C8_witness :
    (ProxyDownloadDecrypt dummyPrims (strBytes "k") .aesctr 100 200 [] [] []
        (strBytes "bytes=200-300")).status = 416 ∧
    (ProxyDownloadDecrypt dummyPrims (strBytes "k") .aesctr 100 200 [] [] []
        (strBytes "bytes=200-300")).contentRange
      = some (strBytes "bytes */" ++ intDec (resolveFileSize 100 200 [] [])) ∧
    (ProxyDownloadDecrypt dummyPrims (strBytes "k") .aesctr 100 200 [] [] []
        (strBytes "bytes=200-300")).body = some [] ∧
    (ProxyDownloadDecrypt dummyPrims (strBytes "k") .aesctr 100 200 [] [] []
        (strBytes "bytes=200-300")).cipher
      = some (NewFlowEnc dummyPrims .aesctr (strBytes "k")
          (resolveFileSize 100 200 [] []).toNat) :=
  claim_C8_bad_range dummyPrims (strBytes "k") .aesctr 100 200 [] [] []
    (strBytes "bytes=200-300") (.unsatisfiable 100) (by decide)

/-- C9 counterexample: an entry whose TTL expired (expiry 0, request one
hour later) is still served, not 404. -/
theorem claim_C9_counterexample :
    ¬ claimC9Property c9Map hourNs (strBytes "k") := by
  intro h
  have h2 := h (Or.inr ⟨c9Entry, by decide, by decide⟩)
  revert h2
  decide

/-- C9 (amended): `HandleRedirect` returns 404 exactly when the key is
absent; a present entry is served with its stored parameters whether or
not its TTL has passed — expiry is enforced only by the background sweep,
which removes exactly the entries with `ExpiresAt` in the past; a
registered entry expires one hour after creation. -/
theorem claim_C9_redirect_lookup (m : List (List Nat × RedirectInfo))
    (key : List Nat) (hkey : key ≠ []) :
    (m.lookup key = none →
      HandleRedirect m (strBytes "/redirect/" ++ key) = .notFound) ∧
    (∀ info, m.lookup key = some info →
      HandleRedirect m (strBytes "/redirect/" ++ key)
        = .served info.url info.fileSize info.password info.encType) ∧
    (∀ now kv, kv ∈ cleanupRedirects m now ↔ kv ∈ m ∧ ¬ kv.2.expiresAt < now) ∧
    (∀ url fileSize password encType now,
      (registerEntry url fileSize password encType now).expiresAt = now + hourNs) := by
  have hstrip : goTrimPre (strBytes "/redirect/" ++ key) (strBytes "/redirect/")
      = key := goTrimPre_append _ _
  refine ⟨?_, ?_, ?_, fun _ _ _ _ _ => rfl⟩
  · intro hnone
    simp only [HandleRedirect, hstrip]
    rw [if_neg hkey, hnone]
  · intro info hsome
    simp only [HandleRedirect, hstrip]
    rw [if_neg hkey, hsome]
  · intro now kv
    simp [cleanupRedirects, List.mem_filter]

/-- Witness for the amended C9 on the one-entry registry. -/
theorem claim_C9_witness :
    (c9Map.lookup (strBytes "k") = none →
      HandleRedirect c9Map (strBytes "/redirect/" ++ strBytes "k") = .notFound) ∧
    (∀ info, c9Map.lookup (strBytes "k") = some info →
      HandleRedirect c9Map (strBytes "/redirect/" ++ strBytes "k")
        = .served info.url info.fileSize info.password info.encType) ∧
    (∀ now kv, kv ∈ cleanupRedirects c9Map now ↔ kv ∈ c9Map ∧ ¬ kv.2.expiresAt < now) ∧
    (∀ url fileSize password encType now,
      (registerEntry url fileSize password encType now).expiresAt = now + hourNs) :=
  claim_C9_redirect_lookup c9Map (strBytes "k") (by decide)

end AlistEnc
